import Mathlib

/-! Verification development for the mcp-market repository.  Python strings
are modelled as lists of characters (`Str`), machine files as explicit
records, and every Python function relevant to the verified claims is
translated into an executable Lean definition that mirrors the source line
by line.  The file is organised as: string primitives, the
`check_mcp_server/verify_mcp.py` confidence table, the balanced-segment
scanner and top-level splitter of `mcp_tool_inspector.py`, tool records,
deduplication, result formatting, the `app.py` output parser, the
Python-AST decorator detector, the TypeScript/JavaScript and Go detectors,
and the repository walk. -/

set_option maxHeartbeats 1000000

/-- Python strings are modelled as explicit character lists. -/
abbrev Str := List Char

/-- The characters stripped by Python `str.strip()` (ASCII whitespace). -/
def pyIsSpace (c : Char) : Bool :=
  c = ' ' || c = '\t' || c = '\n' || c = '\r' || c = Char.ofNat 11 || c = Char.ofNat 12

/-- Python `str.lstrip()`. -/
def lstrip (s : Str) : Str := s.dropWhile pyIsSpace

/-- Python `str.rstrip()`. -/
def rstrip (s : Str) : Str := (s.reverse.dropWhile pyIsSpace).reverse

/-- Python `str.strip()`. -/
def strip (s : Str) : Str := rstrip (lstrip s)

/-- Python `str.split(sep)` for a one-character separator. -/
def splitOnChar (c : Char) : Str → List Str
  | [] => [[]]
  | ch :: rest =>
    if ch = c then [] :: splitOnChar c rest
    else
      match splitOnChar c rest with
      | [] => [[ch]]
      | s :: ss => (ch :: s) :: ss

/-- Python `sep.join(parts)` for a one-character separator. -/
def joinChar (c : Char) : List Str → Str
  | [] => []
  | [s] => s
  | s :: rest => s ++ c :: joinChar c rest

/-- Python `needle in haystack` (substring containment). -/
def containsSub (pat : Str) : Str → Bool
  | [] => decide (pat = [])
  | ch :: rest => pat.isPrefixOf (ch :: rest) || containsSub pat rest

/-- Python `str.replace(old, new)` (all occurrences).  Python's behaviour for
an empty `old` (inserting between characters) is not needed by the
repository; the guard keeps the recursion well-founded and the definition
is only ever used with a non-empty `old`. -/
def replaceAll (old new : Str) : Str → Str
  | [] => []
  | ch :: rest =>
    if old.isPrefixOf (ch :: rest) ∧ old ≠ [] then
      new ++ replaceAll old new (rest.drop (old.length - 1))
    else
      ch :: replaceAll old new rest
termination_by s => s.length
decreasing_by
  · simp only [List.length_cons]
    have := List.length_drop (old.length - 1) rest
    omega
  · simp

/-- Python `str.replace(old, new, 1)` (first occurrence only), with the same
non-empty guard as `replaceAll`. -/
def replaceFirst (old new : Str) : Str → Str
  | [] => []
  | ch :: rest =>
    if old.isPrefixOf (ch :: rest) ∧ old ≠ [] then
      new ++ rest.drop (old.length - 1)
    else
      ch :: replaceFirst old new rest

/-- Python `str.startswith`. -/
def startsWith (pat s : Str) : Bool := pat.isPrefixOf s

/-- Python `str.endswith`. -/
def endsWith (pat s : Str) : Bool := pat.isSuffixOf s

/-! ## check_mcp_server/verify_mcp.py

`verify_mcp_server` walks a directory and runs two per-file regex checks,
`check_mcp_imports` and `check_mcp_decorators`.  The walk and the two file
checks perform file IO, so a scanned file is modelled as a record carrying
the file's basename, its path relative to the scanned directory, and the
two check outcomes; the aggregation and the confidence table are translated
exactly from `verify_mcp_server` (lines 131-167). -/

/-- The extension filter of `verify_mcp_server` line 138. -/
def verifyExtensions : List Str :=
  [".py".toList, ".ts".toList, ".js".toList, ".go".toList,
   ".kt".toList, ".php".toList, ".cs".toList]

/-- One file visited by the `os.walk` loop of `verify_mcp_server`:
its basename, its path relative to the scanned directory, and the results
of `check_mcp_imports` / `check_mcp_decorators` on it. -/
structure ScannedFile where
  name : Str
  rel : Str
  importsHit : Bool
  decoratorsHit : Bool

/-- The body of the `os.walk` loop of `verify_mcp_server` (lines 136-148):
accumulates the evidence file list and the two evidence booleans. -/
def verifyStep (acc : List Str × Bool × Bool) (f : ScannedFile) :
    List Str × Bool × Bool :=
  if verifyExtensions.any (fun ext => endsWith ext f.name) then
    let acc1 : List Str × Bool × Bool :=
      if f.importsHit then (acc.1 ++ [f.rel], true, acc.2.2) else acc
    if f.decoratorsHit then
      ((if f.rel ∈ acc1.1 then acc1.1 else acc1.1 ++ [f.rel]), acc1.2.1, true)
    else acc1
  else acc

/-- Result record of `verify_mcp_server`. -/
structure VerifyResult where
  is_mcp : Bool
  has_imports : Bool
  has_decorators : Bool
  evidence_files : List Str
  confidence : String

/-- `verify_mcp_server` (lines 121-167): the file walk followed by the
confidence table. -/
def verify_mcp_server (files : List ScannedFile) : VerifyResult :=
  let st := files.foldl verifyStep ([], false, false)
  let has_imports := st.2.1
  let has_decorators := st.2.2
  if has_imports && has_decorators then
    { is_mcp := true, has_imports := has_imports, has_decorators := has_decorators,
      evidence_files := st.1, confidence := "high" }
  else if has_imports || has_decorators then
    { is_mcp := true, has_imports := has_imports, has_decorators := has_decorators,
      evidence_files := st.1, confidence := "medium" }
  else
    { is_mcp := false, has_imports := has_imports, has_decorators := has_decorators,
      evidence_files := st.1, confidence := "low" }

/-- Numeric rank of a confidence label, for the monotonicity statement. -/
def confRank (s : String) : Nat :=
  if s = "high" then 2 else if s = "medium" then 1 else 0

theorem verifyFold_booleans (files : List ScannedFile) :
    ∀ acc : List Str × Bool × Bool,
      (files.foldl verifyStep acc).2.1
        = (acc.2.1 || files.any (fun f =>
            verifyExtensions.any (fun ext => endsWith ext f.name) && f.importsHit)) ∧
      (files.foldl verifyStep acc).2.2
        = (acc.2.2 || files.any (fun f =>
            verifyExtensions.any (fun ext => endsWith ext f.name) && f.decoratorsHit)) := by
  induction files with
  | nil => simp
  | cons f fs ih =>
    intro acc
    simp only [List.foldl_cons, List.any_cons]
    obtain ⟨ih1, ih2⟩ := ih (verifyStep acc f)
    rw [ih1, ih2]
    rcases acc with ⟨ev, b1, b2⟩
    simp only [verifyStep]
    by_cases hext : verifyExtensions.any (fun ext => endsWith ext f.name) = true
    · cases hi : f.importsHit <;> cases hd : f.decoratorsHit <;>
        simp [hext, hi, hd, Bool.or_assoc, Bool.or_comm, Bool.or_left_comm]
    · simp only [Bool.not_eq_true] at hext
      simp [hext]

theorem confRank_le_two (files : List ScannedFile) :
    confRank (verify_mcp_server files).confidence ≤ 2 := by
  unfold verify_mcp_server
  dsimp only
  split
  · simp [confRank]
  · split <;> simp [confRank]

/-- C1: `verify_mcp_server`'s verdict is the deterministic function of the
two evidence booleans given by the spec's table: both signals give
confidence `high` and a server verdict, exactly one signal gives `medium`
and a server verdict, no signal gives `low` and a non-server verdict; the
evidence booleans are the disjunctions of the per-file check results over
the extension-filtered files, and a scan with both signals is never ranked
below any other scan. -/
theorem verify_mcp_server_confidence_table (files : List ScannedFile) :
    ((verify_mcp_server files).has_imports
        = files.any (fun f =>
            verifyExtensions.any (fun ext => endsWith ext f.name) && f.importsHit)
      ∧ (verify_mcp_server files).has_decorators
        = files.any (fun f =>
            verifyExtensions.any (fun ext => endsWith ext f.name) && f.decoratorsHit))
    ∧ ((verify_mcp_server files).has_imports = true ∧
        (verify_mcp_server files).has_decorators = true →
          (verify_mcp_server files).confidence = "high" ∧
          (verify_mcp_server files).is_mcp = true)
    ∧ ((verify_mcp_server files).has_imports ≠ (verify_mcp_server files).has_decorators →
          (verify_mcp_server files).confidence = "medium" ∧
          (verify_mcp_server files).is_mcp = true)
    ∧ ((verify_mcp_server files).has_imports = false ∧
        (verify_mcp_server files).has_decorators = false →
          (verify_mcp_server files).confidence = "low" ∧
          (verify_mcp_server files).is_mcp = false)
    ∧ (∀ files2 : List ScannedFile,
        (verify_mcp_server files).has_imports = true ∧
        (verify_mcp_server files).has_decorators = true →
          confRank (verify_mcp_server files2).confidence
            ≤ confRank (verify_mcp_server files).confidence) := by
  obtain ⟨hb1, hb2⟩ := verifyFold_booleans files ([], false, false)
  simp only [Bool.false_or] at hb1 hb2
  refine ⟨?_, ?_, ?_, ?_, ?_⟩
  · constructor
    · show (verify_mcp_server files).has_imports = _
      unfold verify_mcp_server
      dsimp only
      rw [← hb1]
      split
      · rfl
      · split <;> rfl
    · show (verify_mcp_server files).has_decorators = _
      unfold verify_mcp_server
      dsimp only
      rw [← hb2]
      split
      · rfl
      · split <;> rfl
  · intro h
    unfold verify_mcp_server at h ⊢
    dsimp only at h ⊢
    split at h
    · split
      · exact ⟨rfl, rfl⟩
      · simp_all
    · split at h <;> simp_all
  · intro h
    unfold verify_mcp_server at h ⊢
    dsimp only at h ⊢
    rcases hfold : (files.foldl verifyStep ([], false, false)) with ⟨ev, b1, b2⟩
    cases b1 <;> cases b2 <;> simp_all
  · intro h
    unfold verify_mcp_server at h ⊢
    dsimp only at h ⊢
    rcases hfold : (files.foldl verifyStep ([], false, false)) with ⟨ev, b1, b2⟩
    cases b1 <;> cases b2 <;> simp_all
  · intro files2 h
    have h2 := confRank_le_two files2
    have hc : (verify_mcp_server files).confidence = "high" := by
      unfold verify_mcp_server at h ⊢
      dsimp only at h ⊢
      rcases hfold : (files.foldl verifyStep ([], false, false)) with ⟨ev, b1, b2⟩
      cases b1 <;> cases b2 <;> simp_all
    rw [hc]
    have hr : confRank "high" = 2 := by simp [confRank]
    rw [hr]
    exact h2

/-- A scanned file with both evidence signals. -/
def wfileBoth : ScannedFile :=
  { name := "a.py".toList, rel := "a.py".toList, importsHit := true, decoratorsHit := true }

/-- A scanned file with only the import signal. -/
def wfileImports : ScannedFile :=
  { name := "a.py".toList, rel := "a.py".toList, importsHit := true, decoratorsHit := false }

/-- Witness for C1: the three rows of the confidence table at concrete scans. -/
theorem verify_mcp_server_confidence_table_witness :
    (verify_mcp_server [wfileBoth]).confidence = "high"
    ∧ (verify_mcp_server [wfileImports]).confidence = "medium"
    ∧ (verify_mcp_server []).confidence = "low" :=
  ⟨((verify_mcp_server_confidence_table [wfileBoth]).2.1 (by decide)).1,
   ((verify_mcp_server_confidence_table [wfileImports]).2.2.1 (by decide)).1,
   ((verify_mcp_server_confidence_table []).2.2.2.1 (by decide)).1⟩

/-! ## mcp_tool_inspector._extract_balanced_segment

The scanner walks an index through the source, tracking bracket depth, an
in-string marker and an escape flag, and skipping `//` and `/* */` comments
outside strings.  The index walk is modelled by consuming the remaining
characters from the front; on success the loop returns the consumed
characters, which is exactly the Python slice `source[segment_start:index]`. -/

/-- The backquote character, written by code point to keep it out of the
source text. -/
def backquote : Char := Char.ofNat 96

/-- The `//` comment branch (lines 424-429): Python looks for the next
newline with `source.find` and jumps past it, or gives up at end of input.
Returns the consumed characters (up to and including the newline) and the
remaining ones. -/
def splitLineComment : Str → Option (Str × Str)
  | [] => none
  | ch :: rest =>
    if ch = '\n' then some ([ch], rest)
    else
      match splitLineComment rest with
      | none => none
      | some (b, r) => some (ch :: b, r)

/-- The `/* */` comment branch (lines 430-435): Python looks for the next
occurrence of the two-character close marker and jumps past it, or gives up
at end of input. -/
def splitBlockComment : Str → Option (Str × Str)
  | [] => none
  | ch :: rest =>
    if ch = '*' ∧ rest.head? = some '/' then some (['*', '/'], rest.tail)
    else
      match splitBlockComment rest with
      | none => none
      | some (b, r) => some (ch :: b, r)

theorem splitLineComment_length :
    ∀ l b r, splitLineComment l = some (b, r) → r.length ≤ l.length := by
  intro l
  induction l with
  | nil => intro b r h; simp [splitLineComment] at h
  | cons ch rest ih =>
    intro b r h
    rw [splitLineComment] at h
    by_cases hch : ch = '\n'
    · simp [hch] at h
      obtain ⟨hb, hr⟩ := h
      subst hr
      simp
    · simp [hch] at h
      rcases hsub : splitLineComment rest with _ | ⟨b', r'⟩ <;> rw [hsub] at h
      · simp at h
      · simp at h
        obtain ⟨hb, hr⟩ := h
        subst hr
        have := ih b' r' hsub
        simp
        omega

theorem splitBlockComment_length :
    ∀ l b r, splitBlockComment l = some (b, r) → r.length ≤ l.length := by
  intro l
  induction l with
  | nil => intro b r h; simp [splitBlockComment] at h
  | cons ch rest ih =>
    intro b r h
    rw [splitBlockComment] at h
    by_cases hch : ch = '*' ∧ rest.head? = some '/'
    · rw [if_pos hch] at h
      simp at h
      obtain ⟨hb, hr⟩ := h
      subst hr
      have := List.length_tail rest
      simp
      omega
    · rw [if_neg hch] at h
      rcases hsub : splitBlockComment rest with _ | ⟨b', r'⟩ <;> rw [hsub] at h
      · simp at h
      · simp at h
        obtain ⟨hb, hr⟩ := h
        subst hr
        have := ih b' r' hsub
        simp
        omega

/-- The scanning loop of `_extract_balanced_segment` (lines 403-451),
consuming the characters after the opening delimiter.  State: the in-string
marker, the escape flag, the bracket depth; on success it returns the
consumed characters strictly before the matching close.  Python reaches the
close-return only with positive depth, so the Nat depth is faithful for
every reachable state. -/
def extractLoop (o c : Char) : Option Char → Bool → Nat → Str → Option Str
  | _, _, _, [] => none
  | some q, esc, depth, ch :: rest =>
    if esc then (extractLoop o c (some q) false depth rest).map (ch :: ·)
    else if ch = '\\' then (extractLoop o c (some q) true depth rest).map (ch :: ·)
    else if ch = q then (extractLoop o c none false depth rest).map (ch :: ·)
    else (extractLoop o c (some q) false depth rest).map (ch :: ·)
  | none, esc, depth, ch :: rest =>
    if ch = '/' ∧ rest.head? = some '/' then
      match hsplit : splitLineComment rest.tail with
      | none => none
      | some (b, r) =>
        (extractLoop o c none esc depth r).map (fun s => ch :: '/' :: (b ++ s))
    else if ch = '/' ∧ rest.head? = some '*' then
      match hsplit : splitBlockComment rest.tail with
      | none => none
      | some (b, r) =>
        (extractLoop o c none esc depth r).map (fun s => ch :: '*' :: (b ++ s))
    else if ch = '\'' ∨ ch = '"' ∨ ch = backquote then
      (extractLoop o c (some ch) esc depth rest).map (ch :: ·)
    else if ch = o then
      (extractLoop o c none esc (depth + 1) rest).map (ch :: ·)
    else if ch = c then
      if depth = 1 then some []
      else (extractLoop o c none esc (depth - 1) rest).map (ch :: ·)
    else (extractLoop o c none esc depth rest).map (ch :: ·)
termination_by _ _ _ s => s.length
decreasing_by
  all_goals simp only [List.length_cons]
  · omega
  · omega
  · omega
  · omega
  · have h1 := splitLineComment_length rest.tail b r hsplit
    have h2 := List.length_tail rest
    omega
  · have h1 := splitBlockComment_length rest.tail b r hsplit
    have h2 := List.length_tail rest
    omega
  · omega
  · omega
  · omega
  · omega

/-- `_extract_balanced_segment` (lines 395-451): the out-of-range / wrong
opening-character guard, then the scan from the character after the opener
with depth one.  `source.drop startIndex` is empty exactly when
`startIndex >= len(source)`, and its head is `source[start_index]`. -/
def extract_balanced_segment (source : Str) (startIndex : Nat)
    (openChar closeChar : Char) : Option Str :=
  match source.drop startIndex with
  | [] => none
  | ch :: rest =>
    if ch = openChar then extractLoop openChar closeChar none false 1 rest
    else none

/-- C10: `_extract_balanced_segment` is total when its precondition is
violated: whenever the (non-negative) start index is out of range, or the
character there is not the opening character, the result is `none` — the
Lean translation is total, so no exception is possible on any input. -/
theorem extract_balanced_segment_none_of_bad_start
    (source : Str) (startIndex : Nat) (o c : Char)
    (h : source.length ≤ startIndex ∨
      ∀ (hlt : startIndex < source.length), source.get ⟨startIndex, hlt⟩ ≠ o) :
    extract_balanced_segment source startIndex o c = none := by
  rcases h with h | h
  · have hd : source.drop startIndex = [] := List.drop_eq_nil_of_le h
    rw [extract_balanced_segment, hd]
  · rcases hlt : decide (startIndex < source.length) with _ | _
    · have : ¬ startIndex < source.length := of_decide_eq_false hlt
      have hd : source.drop startIndex = [] := List.drop_eq_nil_of_le (by omega)
      rw [extract_balanced_segment, hd]
    · have hlt' : startIndex < source.length := of_decide_eq_true hlt
      have hd : source.drop startIndex
          = source.get ⟨startIndex, hlt'⟩ :: source.drop (startIndex + 1) := by
        rw [List.drop_eq_getElem_cons hlt']
        rfl
      rw [extract_balanced_segment, hd]
      simp only [h hlt', if_false]

/-- Witness for C10: out-of-range and wrong-opener cases at concrete inputs. -/
theorem extract_balanced_segment_none_of_bad_start_witness :
    extract_balanced_segment ['a'] 5 '(' ')' = none
    ∧ extract_balanced_segment ['x'] 0 '(' ')' = none :=
  ⟨extract_balanced_segment_none_of_bad_start ['a'] 5 '(' ')' (Or.inl (by decide)),
   extract_balanced_segment_none_of_bad_start ['x'] 0 '(' ')'
     (Or.inr (by intro hlt; show ('x' : Char) ≠ '('; decide))⟩

/-- True when the two-character block-comment close marker occurs in the
list. -/
def hasStarSlash : Str → Bool
  | [] => false
  | ch :: rest => (ch = '*' && rest.head? = some '/') || hasStarSlash rest

theorem splitLineComment_append (body t : Str) (h : '\n' ∉ body) :
    splitLineComment (body ++ '\n' :: t) = some (body ++ ['\n'], t) := by
  induction body with
  | nil => simp [splitLineComment]
  | cons ch rest ih =>
    have hch : ch ≠ '\n' := fun e => h (by simp [e])
    have h' : '\n' ∉ rest := fun hr => h (List.mem_cons_of_mem _ hr)
    simp [splitLineComment, hch, ih h']

theorem splitBlockComment_append (body t : Str) (h : hasStarSlash body = false) :
    splitBlockComment (body ++ '*' :: '/' :: t) = some (body ++ ['*', '/'], t) := by
  induction body with
  | nil => simp [splitBlockComment]
  | cons ch rest ih =>
    rw [hasStarSlash] at h
    simp only [Bool.or_eq_false_iff, Bool.and_eq_false_iff] at h
    obtain ⟨h1, h2⟩ := h
    have hcond : ¬(ch = '*' ∧ (rest ++ '*' :: '/' :: t).head? = some '/') := by
      rcases rest with _ | ⟨d, rest'⟩
      · simp
      · intro ⟨ha, hb⟩
        simp at hb
        rcases h1 with h1 | h1
        · simp [ha] at h1
        · simp [hb] at h1
    rw [List.cons_append, splitBlockComment, if_neg hcond, ih h2]
    rfl

/-- Body of a string literal opened by quote `q`, as the in-string branch
of the scanner consumes it: a backslash escapes the following character,
and any other character except the closing quote passes through. -/
inductive StrBody (q : Char) : Str → Prop
  | nil : StrBody q []
  | esc (ch : Char) (rest : Str) : StrBody q rest → StrBody q ('\\' :: ch :: rest)
  | ord (ch : Char) (rest : Str) : ch ≠ q → ch ≠ '\\' →
      StrBody q rest → StrBody q (ch :: rest)

/-- Well-formed balanced content between a delimiter pair `o`/`c`: ordinary
characters, complete string literals (whose bodies may contain the
delimiters and comment-like text), complete `//` and `/* */` comments
(whose bodies may contain the delimiters), and properly nested
sub-expressions. -/
inductive BalancedSeg (o c : Char) : Str → Prop
  | nil : BalancedSeg o c []
  | ord (ch : Char) (rest : Str) :
      ch ≠ o → ch ≠ c → ch ≠ '\'' → ch ≠ '"' → ch ≠ backquote → ch ≠ '/' →
      BalancedSeg o c rest → BalancedSeg o c (ch :: rest)
  | strLit (q : Char) (body rest : Str) :
      (q = '\'' ∨ q = '"' ∨ q = backquote) → StrBody q body →
      BalancedSeg o c rest → BalancedSeg o c (q :: (body ++ q :: rest))
  | lineComment (body rest : Str) :
      '\n' ∉ body → BalancedSeg o c rest →
      BalancedSeg o c ('/' :: '/' :: (body ++ '\n' :: rest))
  | blockComment (body rest : Str) :
      hasStarSlash body = false → BalancedSeg o c rest →
      BalancedSeg o c ('/' :: '*' :: (body ++ '*' :: '/' :: rest))
  | nest (inner rest : Str) :
      BalancedSeg o c inner → BalancedSeg o c rest →
      BalancedSeg o c (o :: (inner ++ c :: rest))

theorem strBody_scan (o c q : Char) (hq : q = '\'' ∨ q = '"' ∨ q = backquote) :
    ∀ body, StrBody q body → ∀ d t,
      extractLoop o c (some q) false d (body ++ q :: t)
        = (extractLoop o c none false d t).map (fun s => body ++ q :: s) := by
  have hq' : q ≠ '\\' := by
    rcases hq with h | h | h <;> subst h <;> decide
  intro body hb
  induction hb with
  | nil =>
    intro d t
    rw [List.nil_append, extractLoop]
    simp only [Bool.false_eq_true, if_false, hq', if_true]
    cases hx : extractLoop o c none false d t <;> simp [hx]
  | esc ch rest hrest ih =>
    intro d t
    rw [List.cons_append, List.cons_append, extractLoop]
    simp only [Bool.false_eq_true, if_false, if_pos rfl]
    rw [extractLoop]
    simp only [if_pos rfl]
    rw [ih d t]
    cases hx : extractLoop o c none false d t <;> simp [hx]
  | ord ch rest hne hnb hrest ih =>
    intro d t
    rw [List.cons_append, extractLoop]
    simp only [Bool.false_eq_true, if_false, hnb, hne, if_true]
    rw [ih d t]
    cases hx : extractLoop o c none false d t <;> simp [hx]

theorem extractLoop_balanced (o c : Char)
    (ho1 : o ≠ '\'') (ho2 : o ≠ '"') (ho3 : o ≠ backquote) (ho4 : o ≠ '/')
    (hc1 : c ≠ '\'') (hc2 : c ≠ '"') (hc3 : c ≠ backquote) (hc4 : c ≠ '/')
    (hoc : o ≠ c) :
    ∀ inner, BalancedSeg o c inner → ∀ d t, 0 < d →
      extractLoop o c none false d (inner ++ t)
        = (extractLoop o c none false d t).map (fun s => inner ++ s) := by
  intro inner hb
  induction hb with
  | nil =>
    intro d t hd
    cases hx : extractLoop o c none false d t <;> simp [hx]
  | ord ch rest hcho hchc hq1 hq2 hq3 hsl hrest ih =>
    intro d t hd
    rw [List.cons_append, extractLoop]
    have hnc1 : ¬(ch = '/' ∧ (rest ++ t).head? = some '/') := fun h => hsl h.1
    have hnc2 : ¬(ch = '/' ∧ (rest ++ t).head? = some '*') := fun h => hsl h.1
    have hnq : ¬(ch = '\'' ∨ ch = '"' ∨ ch = backquote) := by
      intro h; rcases h with h | h | h
      · exact hq1 h
      · exact hq2 h
      · exact hq3 h
    rw [if_neg hnc1, if_neg hnc2, if_neg hnq, if_neg hcho, if_neg hchc]
    rw [ih d t hd]
    cases hx : extractLoop o c none false d t <;> simp [hx]
  | strLit q body rest hq hbody hrest ih =>
    intro d t hd
    have hq4 : q ≠ '/' := by rcases hq with h | h | h <;> subst h <;> decide
    rw [List.cons_append, List.append_assoc, List.cons_append, extractLoop]
    have hnc1 : ¬(q = '/' ∧ ((body ++ q :: (rest ++ t)).head? = some '/')) :=
      fun h => hq4 h.1
    have hnc2 : ¬(q = '/' ∧ ((body ++ q :: (rest ++ t)).head? = some '*')) :=
      fun h => hq4 h.1
    rw [if_neg hnc1, if_neg hnc2, if_pos hq]
    rw [strBody_scan o c q hq body hbody d (rest ++ t), ih d t hd]
    cases hx : extractLoop o c none false d t <;> simp [hx]
  | lineComment body rest hnl hrest ih =>
    intro d t hd
    simp only [List.cons_append, List.append_assoc]
    rw [extractLoop]
    have hcond : ('/' : Char) = '/' ∧
        (('/' :: (body ++ '\n' :: (rest ++ t))).head? = some '/') := ⟨rfl, rfl⟩
    rw [if_pos hcond]
    have htail : ('/' :: (body ++ '\n' :: (rest ++ t))).tail
        = body ++ '\n' :: (rest ++ t) := rfl
    rw [htail]
    rw [splitLineComment_append body (rest ++ t) hnl]
    dsimp only
    rw [ih d t hd]
    cases hx : extractLoop o c none false d t <;> simp [hx]
  | blockComment body rest hbs hrest ih =>
    intro d t hd
    simp only [List.cons_append, List.append_assoc]
    rw [extractLoop]
    have hcond2 : ('/' : Char) = '/' ∧
        (('*' :: (body ++ '*' :: '/' :: (rest ++ t))).head? = some '*') := ⟨rfl, rfl⟩
    have hcond1 : ¬(('/' : Char) = '/' ∧
        (('*' :: (body ++ '*' :: '/' :: (rest ++ t))).head? = some '/')) := by
      intro h
      simp at h
    rw [if_neg hcond1, if_pos hcond2]
    have htail : ('*' :: (body ++ '*' :: '/' :: (rest ++ t))).tail
        = body ++ '*' :: '/' :: (rest ++ t) := rfl
    rw [htail]
    rw [splitBlockComment_append body (rest ++ t) hbs]
    dsimp only
    rw [ih d t hd]
    cases hx : extractLoop o c none false d t <;> simp [hx]
  | nest inner rest hinner hrest ihinner ihrest =>
    intro d t hd
    rw [List.cons_append, extractLoop]
    have hnc1 : ¬(o = '/' ∧ (((inner ++ c :: rest) ++ t).head? = some '/')) :=
      fun h => ho4 h.1
    have hnc2 : ¬(o = '/' ∧ (((inner ++ c :: rest) ++ t).head? = some '*')) :=
      fun h => ho4 h.1
    have hnq : ¬(o = '\'' ∨ o = '"' ∨ o = backquote) := by
      intro h; rcases h with h | h | h
      · exact ho1 h
      · exact ho2 h
      · exact ho3 h
    rw [if_neg hnc1, if_neg hnc2, if_neg hnq, if_pos rfl]
    rw [List.append_assoc, List.cons_append]
    rw [ihinner (d + 1) (c :: (rest ++ t)) (by omega)]
    rw [extractLoop]
    have hnc1c : ¬(c = '/' ∧ ((rest ++ t).head? = some '/')) := fun h => hc4 h.1
    have hnc2c : ¬(c = '/' ∧ ((rest ++ t).head? = some '*')) := fun h => hc4 h.1
    have hnqc : ¬(c = '\'' ∨ c = '"' ∨ c = backquote) := by
      intro h; rcases h with h | h | h
      · exact hc1 h
      · exact hc2 h
      · exact hc3 h
    have hnoc : ¬(c = o) := fun h => hoc h.symm
    rw [if_neg hnc1c, if_neg hnc2c, if_neg hnqc, if_neg hnoc, if_pos rfl]
    have hd1 : ¬(d + 1 = 1) := by omega
    rw [if_neg hd1]
    have hd2 : d + 1 - 1 = d := by omega
    rw [hd2, ihrest d t hd]
    cases hx : extractLoop o c none false d t <;> simp [hx]

/-- C2: on a well-formed nested bracket expression, `_extract_balanced_segment`
started at the opening delimiter returns exactly the characters strictly
between the opener and its matching closer — string literals pass their
contents (including delimiter characters and comment-like text) through
verbatim, and comments are skipped without affecting depth; when the source
ends before the depth returns to zero, the result is `none` (the Lean
translation is total, so no exception is possible). -/
theorem extract_balanced_segment_balanced (pre inner rest : Str) (o c : Char)
    (ho1 : o ≠ '\'') (ho2 : o ≠ '"') (ho3 : o ≠ backquote) (ho4 : o ≠ '/')
    (hc1 : c ≠ '\'') (hc2 : c ≠ '"') (hc3 : c ≠ backquote) (hc4 : c ≠ '/')
    (hoc : o ≠ c) (hbal : BalancedSeg o c inner) :
    extract_balanced_segment (pre ++ o :: (inner ++ c :: rest)) pre.length o c
      = some inner
    ∧ extract_balanced_segment (pre ++ o :: inner) pre.length o c = none := by
  have hkey := extractLoop_balanced o c ho1 ho2 ho3 ho4 hc1 hc2 hc3 hc4 hoc
    inner hbal 1
  constructor
  · rw [extract_balanced_segment]
    have hd : (pre ++ o :: (inner ++ c :: rest)).drop pre.length
        = o :: (inner ++ c :: rest) := by
      rw [List.drop_left]
    rw [hd]
    dsimp only
    rw [if_pos rfl]
    rw [hkey (c :: rest) (by omega)]
    rw [extractLoop]
    have hnc1c : ¬(c = '/' ∧ (rest.head? = some '/')) := fun h => hc4 h.1
    have hnc2c : ¬(c = '/' ∧ (rest.head? = some '*')) := fun h => hc4 h.1
    have hnqc : ¬(c = '\'' ∨ c = '"' ∨ c = backquote) := by
      intro h; rcases h with h | h | h
      · exact hc1 h
      · exact hc2 h
      · exact hc3 h
    have hnoc : ¬(c = o) := fun h => hoc h.symm
    rw [if_neg hnc1c, if_neg hnc2c, if_neg hnqc, if_neg hnoc, if_pos rfl,
      if_pos rfl]
    simp
  · rw [extract_balanced_segment]
    have hd : (pre ++ o :: inner).drop pre.length = o :: inner := by
      rw [List.drop_left]
    rw [hd]
    dsimp only
    rw [if_pos rfl]
    have h0 := hkey [] (by omega)
    rw [List.append_nil] at h0
    rw [h0]
    have hnil : extractLoop o c none false 1 ([] : Str) = none := by
      rw [extractLoop]
    rw [hnil]
    rfl

/-- Witness for C2: the interior containing a string literal with delimiter
and comment-like characters, a line comment containing the close delimiter,
and a nested pair is extracted verbatim. -/
theorem extract_balanced_segment_balanced_witness :
    extract_balanced_segment
      ['x', '{', 'a', '\'', '}', '/', '*', '\'', '/', '/', '}', '\n', '{', '}', '}', 'y']
      1 '{' '}'
      = some ['a', '\'', '}', '/', '*', '\'', '/', '/', '}', '\n', '{', '}'] := by
  have hbal : BalancedSeg '{' '}'
      ['a', '\'', '}', '/', '*', '\'', '/', '/', '}', '\n', '{', '}'] :=
    BalancedSeg.ord 'a' _ (by decide) (by decide) (by decide) (by decide)
      (by decide) (by decide)
      (BalancedSeg.strLit '\'' ['}', '/', '*'] _ (by decide)
        (StrBody.ord '}' _ (by decide) (by decide)
          (StrBody.ord '/' _ (by decide) (by decide)
            (StrBody.ord '*' _ (by decide) (by decide) StrBody.nil)))
        (BalancedSeg.lineComment ['}'] _ (by decide)
          (BalancedSeg.nest [] [] BalancedSeg.nil BalancedSeg.nil)))
  have h := (extract_balanced_segment_balanced ['x'] _ ['y'] '{' '}'
    (by decide) (by decide) (by decide) (by decide)
    (by decide) (by decide) (by decide) (by decide) (by decide) hbal).1
  simpa using h

/-! ## mcp_tool_inspector._split_top_level (lines 347-392)

The splitter walks the characters once, tracking three bracket depths, an
in-string marker and an escape flag; unlike the balanced-segment scanner it
has no comment handling.  Python's `max(depth - 1, 0)` is Nat subtraction. -/

/-- Loop state of `_split_top_level`. -/
structure SplitState where
  parts : List Str
  current : Str
  depthParen : Nat
  depthBrace : Nat
  depthBracket : Nat
  inString : Option Char
  escape : Bool

/-- One iteration of the `for char in value` loop of `_split_top_level`. -/
def splitTopLevelStep (sep : Char) (st : SplitState) (ch : Char) : SplitState :=
  match st.inString with
  | some q =>
    let st' := { st with current := st.current ++ [ch] }
    if st.escape then { st' with escape := false }
    else if ch = '\\' then { st' with escape := true }
    else if ch = q then { st' with inString := none }
    else st'
  | none =>
    if ch = '\'' ∨ ch = '"' ∨ ch = backquote then
      { st with inString := some ch, current := st.current ++ [ch] }
    else
      let st1 :=
        if ch = '(' then { st with depthParen := st.depthParen + 1 }
        else if ch = ')' then { st with depthParen := st.depthParen - 1 }
        else if ch = '{' then { st with depthBrace := st.depthBrace + 1 }
        else if ch = '}' then { st with depthBrace := st.depthBrace - 1 }
        else if ch = '[' then { st with depthBracket := st.depthBracket + 1 }
        else if ch = ']' then { st with depthBracket := st.depthBracket - 1 }
        else st
      if ch = sep ∧ st1.depthParen = 0 ∧ st1.depthBrace = 0 ∧ st1.depthBracket = 0 then
        { st1 with parts := st1.parts ++ [strip st1.current], current := [] }
      else
        { st1 with current := st1.current ++ [ch] }

/-- The initial state of the `_split_top_level` loop. -/
def splitInit : SplitState :=
  { parts := [], current := [], depthParen := 0, depthBrace := 0,
    depthBracket := 0, inString := none, escape := false }

/-- `_split_top_level` (lines 347-392): fold the step over the characters,
flush a non-empty current segment, then drop empty parts. -/
def split_top_level (value : Str) (sep : Char) : List Str :=
  let final := value.foldl (splitTopLevelStep sep) splitInit
  let parts :=
    if final.current ≠ [] then final.parts ++ [strip final.current]
    else final.parts
  parts.filter (fun p => p ≠ [])

/-- Counterexample for C3: a separator inside a `//` line comment at depth
zero does produce a split — `_split_top_level` has no comment handling, so
the input splits into two parts at the comma inside the comment. -/
theorem split_top_level_comment_counterexample :
    split_top_level ['a', '/', '/', 'b', ',', 'c', '\n', 'd'] ','
      = [['a', '/', '/', 'b'], ['c', '\n', 'd']] := by decide

theorem strBody_split_scan (sep q : Char) (hq : q ≠ '\\') :
    ∀ body, StrBody q body → ∀ parts current dp db dk,
      List.foldl (splitTopLevelStep sep)
          ⟨parts, current, dp, db, dk, some q, false⟩ (body ++ [q])
        = ⟨parts, current ++ (body ++ [q]), dp, db, dk, none, false⟩ := by
  intro body hb
  induction hb with
  | nil =>
    intro parts current dp db dk
    simp [splitTopLevelStep, hq]
  | esc ch rest hrest ih =>
    intro parts current dp db dk
    rw [List.cons_append, List.cons_append, List.foldl_cons, List.foldl_cons]
    have h1 : splitTopLevelStep sep ⟨parts, current, dp, db, dk, some q, false⟩ '\\'
        = ⟨parts, current ++ ['\\'], dp, db, dk, some q, true⟩ := by
      simp [splitTopLevelStep]
    have h2 : splitTopLevelStep sep ⟨parts, current ++ ['\\'], dp, db, dk, some q, true⟩ ch
        = ⟨parts, current ++ ['\\'] ++ [ch], dp, db, dk, some q, false⟩ := by
      simp [splitTopLevelStep]
    rw [h1, h2, ih]
    simp
  | ord ch rest hne hnb hrest ih =>
    intro parts current dp db dk
    rw [List.cons_append, List.foldl_cons]
    have h1 : splitTopLevelStep sep ⟨parts, current, dp, db, dk, some q, false⟩ ch
        = ⟨parts, current ++ [ch], dp, db, dk, some q, false⟩ := by
      simp [splitTopLevelStep, hne, hnb]
    rw [h1, ih]
    simp

/-- C3, amended: `_split_top_level` is string-aware and depth-aware — a
complete string literal (whose body may contain separators) is appended to
the current segment without producing any split and without touching the
depths, and a separator seen at positive bracket depth is appended rather
than split on; the function has no comment handling (see the
counterexample), so separators in comments behave as ordinary top-level
text. -/
theorem split_top_level_string_and_depth_aware (sep q : Char)
    (hq : q = '\'' ∨ q = '"' ∨ q = backquote) :
    (∀ body, StrBody q body → ∀ parts current dp db dk,
      List.foldl (splitTopLevelStep sep)
          ⟨parts, current, dp, db, dk, none, false⟩ (q :: (body ++ [q]))
        = ⟨parts, current ++ (q :: (body ++ [q])), dp, db, dk, none, false⟩)
    ∧ (∀ st : SplitState, st.inString = none →
        sep ≠ '(' → sep ≠ ')' → sep ≠ '{' → sep ≠ '}' → sep ≠ '[' → sep ≠ ']' →
        ¬(sep = '\'' ∨ sep = '"' ∨ sep = backquote) →
        0 < st.depthParen + st.depthBrace + st.depthBracket →
        splitTopLevelStep sep st sep = { st with current := st.current ++ [sep] }) := by
  have hq' : q ≠ '\\' := by rcases hq with h | h | h <;> subst h <;> decide
  constructor
  · intro body hb parts current dp db dk
    rw [List.foldl_cons]
    have h1 : splitTopLevelStep sep ⟨parts, current, dp, db, dk, none, false⟩ q
        = ⟨parts, current ++ [q], dp, db, dk, some q, false⟩ := by
      simp [splitTopLevelStep, hq]
    rw [h1, strBody_split_scan sep q hq' body hb]
    simp
  · intro st hst h1 h2 h3 h4 h5 h6 hnq hpos
    rcases st with ⟨parts, current, dp, db, dk, inS, esc⟩
    simp only at hst
    subst hst
    simp only [splitTopLevelStep, hnq, if_false, h1, h2, h3, h4, h5, h6]
    have hpos' : 0 < dp + db + dk := by simpa using hpos
    have hcond : ¬(True ∧ dp = 0 ∧ db = 0 ∧ dk = 0) := by
      intro h
      obtain ⟨-, ha, hb, hc⟩ := h
      omega
    rw [if_neg hcond]

/-- Witness for the amended C3: a string literal containing the separator
is consumed without splitting, and a separator at depth one is appended
rather than split on. -/
theorem split_top_level_string_and_depth_aware_witness :
    List.foldl (splitTopLevelStep ',')
        ⟨[], ['x'], 0, 0, 0, none, false⟩ ['\'', ',', '\'']
      = ⟨[], ['x', '\'', ',', '\''], 0, 0, 0, none, false⟩
    ∧ splitTopLevelStep ',' ⟨[], ['x'], 1, 0, 0, none, false⟩ ','
      = { parts := [], current := ['x', ','], depthParen := 1, depthBrace := 0,
          depthBracket := 0, inString := none, escape := false } := by
  constructor
  · exact (split_top_level_string_and_depth_aware ',' '\'' (by decide)).1
      [','] (StrBody.ord ',' [] (by decide) (by decide) StrBody.nil)
      [] ['x'] 0 0 0
  · exact (split_top_level_string_and_depth_aware ',' '\'' (by decide)).2
      ⟨[], ['x'], 1, 0, 0, none, false⟩ rfl (by decide) (by decide) (by decide)
      (by decide) (by decide) (by decide) (by decide) (by decide)

/-! ## ToolInfo and deduplicate_tools (lines 122-127, 685-696) -/

/-- The `ToolInfo` dataclass. -/
structure ToolInfo where
  name : Str
  description : Option Str
  origin : Str
  deriving DecidableEq

/-- The loop of `deduplicate_tools`: `seen` is the set of names already
kept (modelled as a list with membership), `unique` the kept records. -/
def dedupLoop (seen : List Str) (unique : List ToolInfo) :
    List ToolInfo → List ToolInfo
  | [] => unique
  | tool :: rest =>
    if tool.name ∈ seen then dedupLoop seen unique rest
    else dedupLoop (tool.name :: seen) (unique ++ [tool]) rest

/-- `deduplicate_tools` (lines 685-696). -/
def deduplicate_tools (tools : List ToolInfo) : List ToolInfo :=
  dedupLoop [] [] tools

theorem dedupLoop_acc (l : List ToolInfo) :
    ∀ seen acc, dedupLoop seen acc l = acc ++ dedupLoop seen [] l := by
  induction l with
  | nil => intro seen acc; simp [dedupLoop]
  | cons t rest ih =>
    intro seen acc
    by_cases h : t.name ∈ seen
    · rw [dedupLoop, if_pos h, dedupLoop, if_pos h, ih]
    · rw [dedupLoop, if_neg h, dedupLoop, if_neg h, ih,
        ih (t.name :: seen) ([] ++ [t])]
      simp

theorem dedupLoop_cons_seen (seen : List Str) (t : ToolInfo)
    (rest : List ToolInfo) (h : t.name ∈ seen) :
    dedupLoop seen [] (t :: rest) = dedupLoop seen [] rest := by
  rw [dedupLoop, if_pos h]

theorem dedupLoop_cons_new (seen : List Str) (t : ToolInfo)
    (rest : List ToolInfo) (h : t.name ∉ seen) :
    dedupLoop seen [] (t :: rest) = t :: dedupLoop (t.name :: seen) [] rest := by
  rw [dedupLoop, if_neg h, dedupLoop_acc]
  simp

theorem dedupLoop_sublist (l : List ToolInfo) :
    ∀ seen, (dedupLoop seen [] l).Sublist l := by
  induction l with
  | nil => intro seen; simp [dedupLoop]
  | cons t rest ih =>
    intro seen
    by_cases h : t.name ∈ seen
    · rw [dedupLoop_cons_seen seen t rest h]
      exact (ih seen).cons t
    · rw [dedupLoop_cons_new seen t rest h]
      exact (ih (t.name :: seen)).cons₂ t

theorem dedupLoop_names (l : List ToolInfo) :
    ∀ seen, ((dedupLoop seen [] l).map ToolInfo.name).Nodup
      ∧ ∀ x ∈ (dedupLoop seen [] l).map ToolInfo.name, x ∉ seen := by
  induction l with
  | nil => intro seen; simp [dedupLoop]
  | cons t rest ih =>
    intro seen
    by_cases h : t.name ∈ seen
    · rw [dedupLoop_cons_seen seen t rest h]
      exact ih seen
    · rw [dedupLoop_cons_new seen t rest h]
      obtain ⟨ih1, ih2⟩ := ih (t.name :: seen)
      constructor
      · rw [List.map_cons, List.nodup_cons]
        refine ⟨fun hmem => ?_, ih1⟩
        exact ih2 _ hmem (List.mem_cons_self _ _)
      · intro x hx
        rw [List.map_cons, List.mem_cons] at hx
        rcases hx with hx | hx
        · subst hx; exact h
        · intro hxs
          exact ih2 x hx (List.mem_cons_of_mem _ hxs)

theorem dedupLoop_mem (l : List ToolInfo) :
    ∀ seen t, t ∈ dedupLoop seen [] l
      ↔ t.name ∉ seen ∧ ∃ l₁ l₂, l = l₁ ++ t :: l₂
          ∧ t.name ∉ l₁.map ToolInfo.name := by
  induction l with
  | nil =>
    intro seen t
    simp [dedupLoop]
  | cons hd rest ih =>
    intro seen t
    by_cases h : hd.name ∈ seen
    · rw [dedupLoop_cons_seen seen hd rest h, ih seen t]
      constructor
      · rintro ⟨hns, l₁, l₂, hdecomp, hfirst⟩
        refine ⟨hns, hd :: l₁, l₂, by simp [hdecomp], ?_⟩
        simp only [List.map_cons, List.mem_cons]
        rintro (he | he)
        · exact hns (he ▸ h)
        · exact hfirst he
      · rintro ⟨hns, l₁, l₂, hdecomp, hfirst⟩
        rcases l₁ with _ | ⟨u, l₁'⟩
        · simp only [List.nil_append, List.cons.injEq] at hdecomp
          exact absurd (hdecomp.1 ▸ h) hns
        · simp only [List.cons_append, List.cons.injEq] at hdecomp
          obtain ⟨h1, h2⟩ := hdecomp
          simp only [List.map_cons, List.mem_cons] at hfirst
          exact ⟨hns, l₁', l₂, h2, fun he => hfirst (Or.inr he)⟩
    · rw [dedupLoop_cons_new seen hd rest h, List.mem_cons, ih (hd.name :: seen) t]
      constructor
      · rintro (he | ⟨hns, l₁, l₂, hdecomp, hfirst⟩)
        · subst he
          exact ⟨h, [], rest, rfl, by simp⟩
        · simp only [List.mem_cons, not_or] at hns
          refine ⟨hns.2, hd :: l₁, l₂, by simp [hdecomp], ?_⟩
          simp only [List.map_cons, List.mem_cons]
          rintro (he | he)
          · exact hns.1 he
          · exact hfirst he
      · rintro ⟨hns, l₁, l₂, hdecomp, hfirst⟩
        rcases l₁ with _ | ⟨u, l₁'⟩
        · simp only [List.nil_append, List.cons.injEq] at hdecomp
          exact Or.inl hdecomp.1.symm
        · simp only [List.cons_append, List.cons.injEq] at hdecomp
          obtain ⟨h1, h2⟩ := hdecomp
          simp only [List.map_cons, List.mem_cons] at hfirst
          refine Or.inr ⟨?_, l₁', l₂, h2, fun he => hfirst (Or.inr he)⟩
          simp only [List.mem_cons, not_or]
          exact ⟨fun he => hfirst (Or.inl (h1 ▸ he)), hns⟩

/-- C4: `deduplicate_tools` is a stable single pass keyed on the name
field alone: the output is a sublist of the input (first-occurrence order
preserved), output names are pairwise distinct (case-sensitively), and a
record is kept exactly when it is the first record carrying its name — so
any record whose name was seen earlier is dropped regardless of its
description or origin. -/
theorem deduplicate_tools_spec (tools : List ToolInfo) :
    (deduplicate_tools tools).Sublist tools
    ∧ ((deduplicate_tools tools).map ToolInfo.name).Nodup
    ∧ (∀ t, t ∈ deduplicate_tools tools
        ↔ ∃ l₁ l₂, tools = l₁ ++ t :: l₂ ∧ t.name ∉ l₁.map ToolInfo.name)
    ∧ (∀ t1 t2 : ToolInfo, t1.name = t2.name → deduplicate_tools [t1, t2] = [t1]) := by
  refine ⟨dedupLoop_sublist tools [], (dedupLoop_names tools []).1, fun t => ?_,
    fun t1 t2 h => ?_⟩
  · rw [deduplicate_tools, dedupLoop_mem tools [] t]
    simp
  · rw [deduplicate_tools,
      dedupLoop_cons_new [] t1 [t2] (by simp),
      dedupLoop_cons_seen [t1.name] t2 [] (by simp [h]),
      dedupLoop]

/-- Two sample records sharing a name but with different origins. -/
def wtoolA : ToolInfo := { name := "t".toList, description := none, origin := "a.py".toList }

/-- Second sample record: same name, different origin. -/
def wtoolB : ToolInfo := { name := "t".toList, description := none, origin := "b.py".toList }

/-- Witness for C4: two records with identical names and different origins
collapse to the first-encountered one. -/
theorem deduplicate_tools_spec_witness :
    deduplicate_tools [wtoolA, wtoolB] = [wtoolA] :=
  (deduplicate_tools_spec [wtoolA, wtoolB]).2.2.2 wtoolA wtoolB rfl

/-! ## format_results (lines 708-720) and app.parse_tools_output (lines 332-397)

`format_results` renders the tool list as text; `parse_tools_output` parses
that text back into records.  The former joins its `lines` list with a
newline; entries may themselves contain newlines (multi-line descriptions,
the trailing newline of the `Declared in` entry), so the parser sees the
newline-split of the join. -/

/-- Literal fragment of the rendered output: the header line. -/
def headerTag : Str := "Discovered MCP tools:".toList

/-- The header entry of `format_results` line 714, with its trailing newline. -/
def headerEntry : Str := "Discovered MCP tools:\n".toList

/-- Literal marker `- Name:` of `parse_tools_output`. -/
def nameTag : Str := "- Name:".toList

/-- Line prefix `- Name: ` of `format_results`. -/
def nameSpTag : Str := "- Name: ".toList

/-- Literal marker `  Description:` of `parse_tools_output`. -/
def descTag : Str := "  Description:".toList

/-- Line prefix `  Description: ` of `format_results`. -/
def descSpTag : Str := "  Description: ".toList

/-- Literal marker `  Declared in:` of `parse_tools_output`. -/
def declTag : Str := "  Declared in:".toList

/-- Line prefix `  Declared in: ` of `format_results`. -/
def declSpTag : Str := "  Declared in: ".toList

/-- Literal marker `Declared in:` of the stripped-line branch of
`parse_tools_output`. -/
def declStripTag : Str := "Declared in:".toList

/-- The no-tools message of `format_results` line 712. -/
def emptyMsg : Str := "No MCP tools were discovered in the repository.".toList

/-- The entries appended to `lines` for one tool (lines 716-719); the
`Declared in` entry carries a trailing newline.  A description is rendered
only when truthy (present and non-empty). -/
def formatEntry (tool : ToolInfo) : List Str :=
  [nameSpTag ++ tool.name]
  ++ (match tool.description with
      | some d => if d ≠ [] then [descSpTag ++ d] else []
      | none => [])
  ++ [declSpTag ++ tool.origin ++ ['\n']]

/-- `format_results` (lines 708-720). -/
def format_results (tools : List ToolInfo) : Str :=
  if tools = [] then emptyMsg
  else joinChar '\n' (headerEntry :: (tools.map formatEntry).flatten)

/-- A record produced by `parse_tools_output`: the Python dict with keys
`name`, `description`, `origin` (the latter two may stay `None`). -/
structure ParsedTool where
  name : Str
  description : Option Str
  origin : Option Str
  deriving DecidableEq

/-- State of the `for i, line in enumerate(lines)` loop of
`parse_tools_output`: saved tools, the current tool's name and origin (its
description stays `None` until the record is saved), the
`collecting_description` flag and the collected description lines. -/
structure ParseState where
  tools : List ParsedTool
  current : Option (Str × Option Str)
  collecting : Bool
  descLines : List Str
  deriving DecidableEq

/-- Saving a tool (lines 349-354 and 391-395): the description is the
stripped newline-join of the collected lines, when any were collected. -/
def finishTool (cur : Str × Option Str) (descLines : List Str) : ParsedTool :=
  { name := cur.1,
    description :=
      if descLines ≠ [] then some (strip (joinChar '\n' descLines)) else none,
    origin := cur.2 }

/-- One iteration of the line loop of `parse_tools_output` (lines 340-389). -/
def parseLine (st : ParseState) (line : Str) : ParseState :=
  let line_stripped := strip line
  if line_stripped = headerTag then st
  else if startsWith nameTag line_stripped then
    let tools' :=
      match st.current with
      | some cur => st.tools ++ [finishTool cur st.descLines]
      | none => st.tools
    { tools := tools',
      current := some (strip (replaceAll nameTag [] line_stripped), none),
      collecting := false, descLines := [] }
  else if startsWith descTag line ∧ st.current.isSome then
    let desc_text := strip (replaceFirst descTag [] line)
    { st with
      descLines :=
        if desc_text ≠ [] then st.descLines ++ [desc_text] else st.descLines,
      collecting := true }
  else if st.collecting ∧ st.current.isSome then
    if startsWith declTag line then
      let newCur :=
        (match st.current with
        | some cur =>
          some (cur.1, some (strip (replaceAll declTag [] line)))
        | none => none)
      { st with collecting := false, current := newCur }
    else if ¬ startsWith nameTag line_stripped then
      { st with descLines := st.descLines ++ [line] }
    else st
  else if startsWith declStripTag line_stripped ∧ st.current.isSome
      ∧ ¬ st.collecting then
    let newCur :=
      (match st.current with
      | some cur =>
        some (cur.1, some (strip (replaceAll declStripTag [] line_stripped)))
      | none => none)
    { st with current := newCur }
  else st

/-- The initial state of the parse loop. -/
def parseInit : ParseState :=
  { tools := [], current := none, collecting := false, descLines := [] }

/-- `parse_tools_output` (lines 332-397). -/
def parse_tools_output (output : Str) : List ParsedTool :=
  let final := (splitOnChar '\n' output).foldl parseLine parseInit
  match final.current with
  | some cur => final.tools ++ [finishTool cur final.descLines]
  | none => final.tools

theorem lstrip_cons_nospace (a : Char) (l : Str) (h : pyIsSpace a = false) :
    lstrip (a :: l) = a :: l := by
  simp [lstrip, List.dropWhile_cons, h]

theorem lstrip_cons_space (a : Char) (l : Str) (h : pyIsSpace a = true) :
    lstrip (a :: l) = lstrip l := by
  simp [lstrip, List.dropWhile_cons, h]

theorem rstrip_snoc_nospace (l : Str) (a : Char) (h : pyIsSpace a = false) :
    rstrip (l ++ [a]) = l ++ [a] := by
  simp [rstrip, List.dropWhile_cons, h]

theorem strip_wrap (p₀ : Char) (mid : Str) (a : Char)
    (h₀ : pyIsSpace p₀ = false) (ha : pyIsSpace a = false) :
    strip (p₀ :: (mid ++ [a])) = p₀ :: (mid ++ [a]) := by
  rw [strip, lstrip_cons_nospace _ _ h₀]
  have : p₀ :: (mid ++ [a]) = (p₀ :: mid) ++ [a] := rfl
  rw [this, rstrip_snoc_nospace _ _ ha]

theorem lstrip_length_le (l : Str) : (lstrip l).length ≤ l.length :=
  (List.dropWhile_suffix pyIsSpace).sublist.length_le

theorem rstrip_length_le (l : Str) : (rstrip l).length ≤ l.length := by
  rw [rstrip, List.length_reverse]
  calc (l.reverse.dropWhile pyIsSpace).length ≤ l.reverse.length :=
        (List.dropWhile_suffix pyIsSpace).sublist.length_le
    _ = l.length := List.length_reverse l

theorem lstrip_eq_of_strip (l : Str) (h : strip l = l) : lstrip l = l := by
  have h1 : l.length ≤ (lstrip l).length := by
    conv_lhs => rw [← h]
    exact rstrip_length_le (lstrip l)
  exact (List.dropWhile_suffix pyIsSpace).eq_of_length
    (Nat.le_antisymm (lstrip_length_le l) h1)

theorem rstrip_eq_of_strip (l : Str) (h : strip l = l) : rstrip l = l := by
  have h2 := lstrip_eq_of_strip l h
  rw [strip, h2] at h
  exact h

theorem head_nospace_of_stripFixed (l : Str) (h : strip l = l) (hne : l ≠ []) :
    ∃ a t, l = a :: t ∧ pyIsSpace a = false := by
  have h1 := lstrip_eq_of_strip l h
  rcases l with _ | ⟨a, t⟩
  · exact absurd rfl hne
  · refine ⟨a, t, rfl, ?_⟩
    by_contra hsp
    rw [Bool.not_eq_false] at hsp
    rw [lstrip_cons_space a t hsp] at h1
    have := lstrip_length_le t
    have h2 := congrArg List.length h1
    simp at h2
    omega

theorem last_nospace_of_stripFixed (l : Str) (h : strip l = l) (hne : l ≠ []) :
    ∃ t a, l = t ++ [a] ∧ pyIsSpace a = false := by
  have h1 := rstrip_eq_of_strip l h
  rcases he : l.reverse with _ | ⟨a, t'⟩
  · rw [List.reverse_eq_nil_iff] at he
    exact absurd he hne
  · refine ⟨t'.reverse, a, ?_, ?_⟩
    · have := congrArg List.reverse he
      simpa using this
    · by_contra hsp
      rw [Bool.not_eq_false] at hsp
      rw [rstrip, he] at h1
      rw [List.dropWhile_cons, if_pos hsp] at h1
      have h2 := congrArg List.length h1
      have h3 := (List.dropWhile_suffix (l := t') pyIsSpace).sublist.length_le
      have h4 : l.length = t'.length + 1 := by
        have := congrArg List.length he
        simpa using this
      simp at h2
      omega

theorem isPrefixOf_append_self (p x : Str) : List.isPrefixOf p (p ++ x) = true := by
  rw [List.isPrefixOf_iff_prefix]
  exact List.prefix_append p x

theorem isPrefixOf_cons_neq (a b : Char) (as bs : Str) (h : a ≠ b) :
    List.isPrefixOf (a :: as) (b :: bs) = false := by
  simp [List.isPrefixOf, h]

theorem containsSub_elim (pat l : Str) (h : containsSub pat l = true) :
    ∃ a b, l = a ++ pat ++ b := by
  induction l with
  | nil =>
    rw [containsSub] at h
    refine ⟨[], [], ?_⟩
    have := of_decide_eq_true h
    simp [this]
  | cons ch rest ih =>
    rw [containsSub, Bool.or_eq_true] at h
    rcases h with h | h
    · rw [List.isPrefixOf_iff_prefix] at h
      obtain ⟨t, ht⟩ := h
      exact ⟨[], t, by simp [← ht]⟩
    · obtain ⟨a, b, hab⟩ := ih h
      exact ⟨ch :: a, b, by simp [hab]⟩

theorem containsSub_intro (pat a b : Str) :
    containsSub pat (a ++ pat ++ b) = true := by
  induction a with
  | nil =>
    rcases pat with _ | ⟨p, ps⟩
    · rcases b with _ | ⟨c, cs⟩ <;> simp [containsSub]
    · rw [List.nil_append, List.cons_append, containsSub, Bool.or_eq_true]
      left
      rw [← List.cons_append]
      exact isPrefixOf_append_self (p :: ps) b
  | cons ch a' ih =>
    rw [List.cons_append, List.cons_append, containsSub, Bool.or_eq_true]
    right
    exact ih

theorem containsSub_of_append_left (u pat l : Str)
    (h : containsSub (u ++ pat) l = true) : containsSub pat l = true := by
  obtain ⟨a, b, hab⟩ := containsSub_elim _ _ h
  rw [hab, ← List.append_assoc]
  exact containsSub_intro pat (a ++ u) b

theorem replaceAll_of_not_contains (old new l : Str)
    (h : containsSub old l = false) : replaceAll old new l = l := by
  induction l with
  | nil => rw [replaceAll]
  | cons ch rest ih =>
    rw [containsSub, Bool.or_eq_false_iff] at h
    rw [replaceAll, if_neg, ih h.2]
    intro hc
    rw [h.1] at hc
    exact absurd hc.1 (by simp)

theorem replaceAll_prefix (old new l : Str) (hpre : List.isPrefixOf old l = true)
    (hne : old ≠ []) (h : containsSub old (l.drop old.length) = false) :
    replaceAll old new l = new ++ l.drop old.length := by
  rcases he : old with _ | ⟨o, os⟩
  · exact absurd he hne
  subst he
  rcases l with _ | ⟨ch, rest⟩
  · rw [List.isPrefixOf_iff_prefix] at hpre
    exact absurd (List.eq_nil_of_prefix_nil hpre) (by simp)
  · rw [replaceAll, if_pos ⟨hpre, by simp⟩]
    have hdrop : rest.drop ((o :: os).length - 1)
        = (ch :: rest).drop (o :: os).length := by simp
    rw [hdrop, replaceAll_of_not_contains _ new _ h]

theorem replaceFirst_prefix (old new l : Str) (hpre : List.isPrefixOf old l = true)
    (hne : old ≠ []) : replaceFirst old new l = new ++ l.drop old.length := by
  rcases he : old with _ | ⟨o, os⟩
  · exact absurd he hne
  subst he
  rcases l with _ | ⟨ch, rest⟩
  · rw [List.isPrefixOf_iff_prefix] at hpre
    exact absurd (List.eq_nil_of_prefix_nil hpre) (by simp)
  · rw [replaceFirst, if_pos ⟨hpre, by simp⟩]
    have hdrop : rest.drop ((o :: os).length - 1)
        = (ch :: rest).drop (o :: os).length := by simp
    rw [hdrop]

theorem splitOnChar_ne_nil (c : Char) (l : Str) : splitOnChar c l ≠ [] := by
  induction l with
  | nil => simp [splitOnChar]
  | cons ch rest ih =>
    rw [splitOnChar]
    by_cases h : ch = c
    · simp [h]
    · rw [if_neg h]
      rcases he : splitOnChar c rest with _ | ⟨s, ss⟩
      · simp
      · simp

theorem splitOnChar_append_cons (c : Char) (e r : Str) :
    splitOnChar c (e ++ c :: r) = splitOnChar c e ++ splitOnChar c r := by
  induction e with
  | nil =>
    have h0 : splitOnChar c ([] : Str) = [[]] := by rw [splitOnChar]
    rw [List.nil_append, h0, splitOnChar, if_pos rfl]
    rfl
  | cons ch e' ih =>
    rw [List.cons_append, splitOnChar, splitOnChar]
    by_cases h : ch = c
    · rw [if_pos h, if_pos h, ih]
      rfl
    · rw [if_neg h, if_neg h, ih]
      rcases he : splitOnChar c e' with _ | ⟨s, ss⟩
      · exact absurd he (splitOnChar_ne_nil c e')
      · rw [List.cons_append]
        rfl

theorem splitOnChar_not_mem (c : Char) (l : Str) (h : c ∉ l) :
    splitOnChar c l = [l] := by
  induction l with
  | nil => rw [splitOnChar]
  | cons ch rest ih =>
    have hch : ch ≠ c := fun he => h (by simp [he])
    have hrest : c ∉ rest := fun he => h (List.mem_cons_of_mem _ he)
    rw [splitOnChar, if_neg hch, ih hrest]

theorem joinChar_splitOnChar (c : Char) (l : Str) :
    joinChar c (splitOnChar c l) = l := by
  induction l with
  | nil => rw [splitOnChar]; rfl
  | cons ch rest ih =>
    rw [splitOnChar]
    by_cases h : ch = c
    · rw [if_pos h]
      have hj : joinChar c ([] :: splitOnChar c rest)
          = [] ++ c :: joinChar c (splitOnChar c rest) := by
        rcases he : splitOnChar c rest with _ | ⟨s, ss⟩
        · exact absurd he (splitOnChar_ne_nil c rest)
        · rfl
      rw [hj, ih, h]
      rfl
    · rw [if_neg h]
      rcases he : splitOnChar c rest with _ | ⟨s, ss⟩
      · exact absurd he (splitOnChar_ne_nil c rest)
      · rw [he] at ih
        rcases ss with _ | ⟨s2, ss2⟩
        · have h1 : joinChar c [ch :: s] = ch :: s := rfl
          have h2 : joinChar c [s] = s := rfl
          rw [h2] at ih
          rw [h1, ih]
        · have h1 : joinChar c ((ch :: s) :: s2 :: ss2)
              = (ch :: s) ++ c :: joinChar c (s2 :: ss2) := rfl
          have h2 : joinChar c (s :: s2 :: ss2)
              = s ++ c :: joinChar c (s2 :: ss2) := rfl
          rw [h2] at ih
          rw [h1, List.cons_append, ih]

theorem not_mem_of_mem_splitOnChar (c : Char) (l : Str) :
    ∀ s ∈ splitOnChar c l, c ∉ s := by
  induction l with
  | nil =>
    intro s hs
    rw [splitOnChar] at hs
    simp at hs
    simp [hs]
  | cons ch rest ih =>
    intro s hs
    rw [splitOnChar] at hs
    by_cases h : ch = c
    · rw [if_pos h, List.mem_cons] at hs
      rcases hs with hs | hs
      · simp [hs]
      · exact ih s hs
    · rw [if_neg h] at hs
      rcases he : splitOnChar c rest with _ | ⟨t, ts⟩
      · exact absurd he (splitOnChar_ne_nil c rest)
      · rw [he] at hs
        rw [List.mem_cons] at hs
        rcases hs with hs | hs
        · subst hs
          intro hmem
          rw [List.mem_cons] at hmem
          rcases hmem with hmem | hmem
          · exact h hmem.symm
          · exact ih t (by rw [he]; exact List.mem_cons_self t ts) hmem
        · exact ih s (by rw [he]; exact List.mem_cons_of_mem t hs)

theorem splitOnChar_joinChar_flatten (c : Char) :
    ∀ es : List Str, es ≠ [] →
      splitOnChar c (joinChar c es) = (es.map (splitOnChar c)).flatten := by
  intro es
  induction es with
  | nil => intro h; exact absurd rfl h
  | cons e es' ih =>
    intro _
    rcases es' with _ | ⟨e2, es''⟩
    · have h1 : joinChar c [e] = e := rfl
      rw [h1]
      simp
    · have h1 : joinChar c (e :: e2 :: es'')
          = e ++ c :: joinChar c (e2 :: es'') := rfl
      rw [h1, splitOnChar_append_cons, ih (by simp)]
      simp

theorem splitOnChar_join_of_no_sep (c : Char) (es : List Str) (hne : es ≠ [])
    (h : ∀ e ∈ es, c ∉ e) : splitOnChar c (joinChar c es) = es := by
  rw [splitOnChar_joinChar_flatten c es hne]
  have hmap : es.map (splitOnChar c) = es.map (fun e => [e]) := by
    apply List.map_congr_left
    intro e he
    exact splitOnChar_not_mem c e (h e he)
  rw [hmap]
  clear h hne hmap
  induction es with
  | nil => rfl
  | cons e es' ih2 =>
    simp only [List.map_cons, List.flatten_cons, ih2, List.singleton_append]

theorem strip_cons_space_eq (a : Char) (l : Str) (h : pyIsSpace a = true) :
    strip (a :: l) = strip l := by
  rw [strip, strip, lstrip_cons_space a l h]

theorem strip_append_fixed (p₀ : Char) (pmid l : Str) (h₀ : pyIsSpace p₀ = false)
    (hl : strip l = l) (hne : l ≠ []) :
    strip ((p₀ :: pmid) ++ l) = (p₀ :: pmid) ++ l := by
  obtain ⟨t, a, hta, ha⟩ := last_nospace_of_stripFixed l hl hne
  subst hta
  have hshape : (p₀ :: pmid) ++ (t ++ [a]) = p₀ :: ((pmid ++ t) ++ [a]) := by simp
  rw [hshape, strip_wrap p₀ (pmid ++ t) a h₀ ha]

/-- The tools saved when a pending record is flushed. -/
def savedOf (cur : Option (Str × Option Str)) (dls : List Str) : List ParsedTool :=
  match cur with
  | some c => [finishTool c dls]
  | none => []

theorem parseLine_header (st : ParseState) : parseLine st headerTag = st := by
  have h : strip headerTag = headerTag := by decide
  simp only [parseLine, h]
  rw [if_pos trivial]

theorem parseLine_blank (st : ParseState) (h : st.collecting = false) :
    parseLine st [] = st := by
  have h0 : strip ([] : Str) = [] := by decide
  simp only [parseLine, h0]
  rw [if_neg (by decide), if_neg (by decide),
    if_neg (by simp [startsWith, descTag, List.isPrefixOf]),
    if_neg (by simp [h]),
    if_neg (by simp [startsWith, declStripTag, List.isPrefixOf])]

theorem parseLine_name (st : ParseState) (name : Str) (hne : name ≠ [])
    (hsf : strip name = name)
    (hnc : containsSub nameTag name = false) :
    parseLine st (nameSpTag ++ name)
      = { tools := st.tools ++ savedOf st.current st.descLines,
          current := some (name, none), collecting := false, descLines := [] } := by
  have hcons : nameSpTag = '-' :: (" Name: ".toList) := by decide
  have hstrip : strip (nameSpTag ++ name) = nameSpTag ++ name := by
    rw [hcons]
    exact strip_append_fixed '-' (" Name: ".toList) name (by decide) hsf hne
  have hhd : ¬(nameSpTag ++ name = headerTag) := by
    simp [nameSpTag, headerTag]
  have hshape : nameSpTag ++ name = nameTag ++ (' ' :: name) := by
    simp [nameSpTag, nameTag]
  have hpre : startsWith nameTag (nameSpTag ++ name) = true := by
    rw [startsWith, hshape]
    exact isPrefixOf_append_self _ _
  have hc2 : containsSub nameTag (' ' :: name) = false := by
    rw [containsSub, hnc]
    simp [nameTag, List.isPrefixOf]
  have hrepl : replaceAll nameTag [] (nameSpTag ++ name) = ' ' :: name := by
    rw [hshape, replaceAll_prefix _ _ _ (isPrefixOf_append_self _ _)
      (by simp [nameTag]) (by rw [List.drop_left]; exact hc2)]
    rw [List.nil_append, List.drop_left]
  have hsp : strip (' ' :: name) = name := by
    rw [strip_cons_space_eq ' ' name (by decide), hsf]
  simp only [parseLine, hstrip]
  rw [if_neg hhd, if_pos hpre, hrepl, hsp]
  rcases hc : st.current with _ | ⟨c⟩ <;> simp [savedOf, hc]

theorem parseLine_descFirst (st : ParseState) (dl : Str)
    (hcur : st.current.isSome = true) (hne : dl ≠ []) (hsf : strip dl = dl) :
    parseLine st (descSpTag ++ dl)
      = { st with descLines := st.descLines ++ [dl], collecting := true } := by
  have hstrip : strip (descSpTag ++ dl) = "Description: ".toList ++ dl := by
    have hshape : descSpTag ++ dl
        = ' ' :: (' ' :: ("Description: ".toList ++ dl)) := by simp [descSpTag]
    rw [hshape, strip_cons_space_eq _ _ (by decide),
      strip_cons_space_eq _ _ (by decide)]
    have hcons : ("Description: ".toList : Str)
        = 'D' :: ("escription: ".toList) := by decide
    rw [hcons]
    exact strip_append_fixed 'D' ("escription: ".toList) dl (by decide) hsf hne
  have hhd : ¬("Description: ".toList ++ dl = headerTag) := by
    simp [headerTag]
  have hnm : ¬(startsWith nameTag ("Description: ".toList ++ dl) = true) := by
    simp [startsWith, nameTag, List.isPrefixOf]
  have hshape2 : descSpTag ++ dl = descTag ++ (' ' :: dl) := by
    simp [descSpTag, descTag]
  have hpre : startsWith descTag (descSpTag ++ dl) = true := by
    rw [startsWith, hshape2]
    exact isPrefixOf_append_self _ _
  have hrepl : replaceFirst descTag [] (descSpTag ++ dl) = ' ' :: dl := by
    rw [hshape2, replaceFirst_prefix _ _ _ (isPrefixOf_append_self _ _)
      (by simp [descTag])]
    rw [List.nil_append, List.drop_left]
  have hsp : strip (' ' :: dl) = dl := by
    rw [strip_cons_space_eq ' ' dl (by decide), hsf]
  simp only [parseLine, hstrip]
  rw [if_neg hhd, if_neg hnm, if_pos (show _ ∧ _ from ⟨hpre, hcur⟩), hrepl, hsp,
    if_pos hne]

theorem parseLine_descCont (st : ParseState) (l : Str)
    (hcoll : st.collecting = true) (hcur : st.current.isSome = true)
    (h1 : ¬(strip l = headerTag))
    (h2 : ¬(startsWith nameTag (strip l) = true))
    (h3 : ¬(startsWith descTag l = true))
    (h4 : ¬(startsWith declTag l = true)) :
    parseLine st l = { st with descLines := st.descLines ++ [l] } := by
  simp only [parseLine]
  rw [if_neg h1, if_neg h2, if_neg (by intro hand; exact h3 hand.1),
    if_pos (show _ ∧ _ from ⟨hcoll, hcur⟩), if_neg h4, if_pos h2]

theorem declared_strip (origin : Str) (hsf : strip origin = origin)
    (hne : origin ≠ []) :
    strip (declSpTag ++ origin) = "Declared in: ".toList ++ origin := by
  have hshape : declSpTag ++ origin
      = ' ' :: (' ' :: ("Declared in: ".toList ++ origin)) := by simp [declSpTag]
  rw [hshape, strip_cons_space_eq _ _ (by decide),
    strip_cons_space_eq _ _ (by decide)]
  have hcons : ("Declared in: ".toList : Str)
      = 'D' :: ("eclared in: ".toList) := by decide
  rw [hcons]
  exact strip_append_fixed 'D' ("eclared in: ".toList) origin (by decide) hsf hne

theorem parseLine_declaredColl (st : ParseState) (c : Str × Option Str)
    (origin : Str) (hcoll : st.collecting = true) (hcur : st.current = some c)
    (hsf : strip origin = origin) (hne : origin ≠ [])
    (hnc : containsSub declStripTag (' ' :: origin) = false) :
    parseLine st (declSpTag ++ origin)
      = { st with collecting := false, current := some (c.1, some origin) } := by
  have hstrip := declared_strip origin hsf hne
  have hhd : ¬("Declared in: ".toList ++ origin = headerTag) := by
    simp [headerTag]
  have hnm : ¬(startsWith nameTag ("Declared in: ".toList ++ origin) = true) := by
    simp [startsWith, nameTag, List.isPrefixOf]
  have hds : ¬(startsWith descTag (declSpTag ++ origin) = true) := by
    simp [startsWith, descTag, declSpTag, List.isPrefixOf]
  have hshape2 : declSpTag ++ origin = declTag ++ (' ' :: origin) := by
    simp [declSpTag, declTag]
  have hpre : startsWith declTag (declSpTag ++ origin) = true := by
    rw [startsWith, hshape2]
    exact isPrefixOf_append_self _ _
  have hc2 : containsSub declTag (' ' :: origin) = false := by
    by_contra hcc
    rw [Bool.not_eq_false] at hcc
    have h5 : containsSub ("  ".toList ++ declStripTag) (' ' :: origin) = true := by
      have he : ("  ".toList ++ declStripTag : Str) = declTag := by decide
      rw [he]
      exact hcc
    have h6 := containsSub_of_append_left ("  ".toList) declStripTag _ h5
    rw [hnc] at h6
    exact absurd h6 (by simp)
  have hrepl : replaceAll declTag [] (declSpTag ++ origin) = ' ' :: origin := by
    rw [hshape2, replaceAll_prefix _ _ _ (isPrefixOf_append_self _ _)
      (by simp [declTag]) (by rw [List.drop_left]; exact hc2)]
    rw [List.nil_append, List.drop_left]
  have hsp : strip (' ' :: origin) = origin := by
    rw [strip_cons_space_eq ' ' origin (by decide), hsf]
  simp only [parseLine, hstrip]
  rw [if_neg hhd, if_neg hnm, if_neg (by intro hand; exact hds hand.1),
    if_pos (show _ ∧ _ from ⟨hcoll, by rw [hcur]; rfl⟩), if_pos hpre, hrepl, hsp,
    hcur]

theorem parseLine_declaredNoColl (st : ParseState) (c : Str × Option Str)
    (origin : Str) (hcoll : st.collecting = false) (hcur : st.current = some c)
    (hsf : strip origin = origin) (hne : origin ≠ [])
    (hnc : containsSub declStripTag (' ' :: origin) = false) :
    parseLine st (declSpTag ++ origin)
      = { st with current := some (c.1, some origin) } := by
  have hstrip := declared_strip origin hsf hne
  have hhd : ¬("Declared in: ".toList ++ origin = headerTag) := by
    simp [headerTag]
  have hnm : ¬(startsWith nameTag ("Declared in: ".toList ++ origin) = true) := by
    simp [startsWith, nameTag, List.isPrefixOf]
  have hds : ¬(startsWith descTag (declSpTag ++ origin) = true) := by
    simp [startsWith, descTag, declSpTag, List.isPrefixOf]
  have hshape2 : ("Declared in: ".toList ++ origin : Str)
      = declStripTag ++ (' ' :: origin) := by
    simp [declStripTag]
  have hpre : startsWith declStripTag ("Declared in: ".toList ++ origin) = true := by
    rw [startsWith, hshape2]
    exact isPrefixOf_append_self _ _
  have hrepl : replaceAll declStripTag [] ("Declared in: ".toList ++ origin)
      = ' ' :: origin := by
    rw [hshape2, replaceAll_prefix _ _ _ (isPrefixOf_append_self _ _)
      (by simp [declStripTag]) (by rw [List.drop_left]; exact hnc)]
    rw [List.nil_append, List.drop_left]
  have hsp : strip (' ' :: origin) = origin := by
    rw [strip_cons_space_eq ' ' origin (by decide), hsf]
  simp only [parseLine, hstrip]
  rw [if_neg hhd, if_neg hnm, if_neg (by intro hand; exact hds hand.1),
    if_neg (by rw [hcoll]; simp),
    if_pos (show _ ∧ _ from ⟨hpre, by rw [hcur]; rfl, by rw [hcoll]; simp⟩),
    hrepl, hsp, hcur]

/-- A rendered tool record that survives the parse round trip: name and
origin are non-empty, trimmed, newline-free and do not contain the parser's
markers; a description, when present, is non-empty and trimmed, its first
line is trimmed, and its continuation lines do not collide with the
marker lines of the parser. -/
def RoundTrippable (t : ToolInfo) : Prop :=
  t.name ≠ [] ∧ strip t.name = t.name ∧ '\n' ∉ t.name
  ∧ containsSub nameTag t.name = false
  ∧ t.origin ≠ [] ∧ strip t.origin = t.origin ∧ '\n' ∉ t.origin
  ∧ containsSub declStripTag (' ' :: t.origin) = false
  ∧ ∀ d, t.description = some d →
      d ≠ [] ∧ strip d = d
      ∧ strip ((splitOnChar '\n' d).headD []) = (splitOnChar '\n' d).headD []
      ∧ ∀ l ∈ (splitOnChar '\n' d).tail,
          ¬(strip l = headerTag)
          ∧ ¬(startsWith nameTag (strip l) = true)
          ∧ ¬(startsWith descTag l = true)
          ∧ ¬(startsWith declTag l = true)

/-- The description lines the parser collects for one rendered tool. -/
def descL (t : ToolInfo) : List Str :=
  match t.description with
  | some d => splitOnChar '\n' d
  | none => []

/-- The lines the renderer produces for one tool record. -/
def chunkLines (t : ToolInfo) : List Str :=
  (nameSpTag ++ t.name)
    :: ((match t.description with
        | some d =>
          (descSpTag ++ (splitOnChar '\n' d).headD []) :: (splitOnChar '\n' d).tail
        | none => [])
      ++ [declSpTag ++ t.origin, []])

/-- The final flush of `parse_tools_output` (lines 391-395). -/
def parseFinish (st : ParseState) : List ParsedTool :=
  match st.current with
  | some cur => st.tools ++ [finishTool cur st.descLines]
  | none => st.tools

/-- The parsed record a well-formed tool round-trips to. -/
def expectedOf (t : ToolInfo) : ParsedTool :=
  { name := t.name, description := t.description, origin := some t.origin }

theorem parse_tools_output_eq (out : Str) :
    parse_tools_output out
      = parseFinish ((splitOnChar '\n' out).foldl parseLine parseInit) := rfl

theorem splitOnChar_head_cons (c a : Char) (rest : Str) (h : a ≠ c) :
    ∃ s ss, splitOnChar c (a :: rest) = (a :: s) :: ss := by
  rw [splitOnChar, if_neg h]
  rcases he : splitOnChar c rest with _ | ⟨s, ss⟩
  · exact absurd he (splitOnChar_ne_nil c rest)
  · exact ⟨s, ss, rfl⟩

theorem descHead_ne_nil (d : Str) (hne : d ≠ []) (hsf : strip d = d) :
    (splitOnChar '\n' d).headD [] ≠ [] := by
  obtain ⟨a, t, hat, ha⟩ := head_nospace_of_stripFixed d hsf hne
  have han : a ≠ '\n' := by
    intro he
    rw [he] at ha
    exact absurd ha (by decide)
  obtain ⟨s, ss, hs⟩ := splitOnChar_head_cons '\n' a t han
  rw [hat, hs]
  simp

theorem split_eq_head_cons_tail (c : Char) (d : Str) :
    splitOnChar c d = (splitOnChar c d).headD [] :: (splitOnChar c d).tail := by
  rcases he : splitOnChar c d with _ | ⟨s, ss⟩
  · exact absurd he (splitOnChar_ne_nil c d)
  · rfl

theorem foldl_descCont (ls : List Str)
    (hls : ∀ l ∈ ls,
      ¬(strip l = headerTag)
      ∧ ¬(startsWith nameTag (strip l) = true)
      ∧ ¬(startsWith descTag l = true)
      ∧ ¬(startsWith declTag l = true)) :
    ∀ st : ParseState, st.collecting = true → st.current.isSome = true →
      List.foldl parseLine st ls = { st with descLines := st.descLines ++ ls } := by
  induction ls with
  | nil => intro st h1 h2; simp
  | cons l ls' ih =>
    intro st h1 h2
    obtain ⟨c1, c2, c3, c4⟩ := hls l (List.mem_cons_self l ls')
    rw [List.foldl_cons, parseLine_descCont st l h1 h2 c1 c2 c3 c4,
      ih (fun x hx => hls x (List.mem_cons_of_mem l hx)) _ (by simp [h1]) (by simp [h2])]
    simp

theorem parse_chunk (t : ToolInfo) (ht : RoundTrippable t)
    (acc : List ParsedTool) (cur : Option (Str × Option Str)) (dls : List Str) :
    List.foldl parseLine ⟨acc, cur, false, dls⟩ (chunkLines t)
      = ⟨acc ++ savedOf cur dls, some (t.name, some t.origin), false, descL t⟩ := by
  obtain ⟨hn1, hn2, _, hn4, ho1, ho2, _, ho4, hd⟩ := ht
  rw [chunkLines, List.foldl_cons,
    parseLine_name ⟨acc, cur, false, dls⟩ t.name hn1 hn2 hn4]
  rcases hdesc : t.description with _ | ⟨d⟩
  · simp only [hdesc]
    rw [List.nil_append, List.foldl_cons,
      parseLine_declaredNoColl _ (t.name, none) t.origin (by rfl) (by rfl) ho2 ho1 ho4,
      List.foldl_cons, parseLine_blank _ (by rfl)]
    simp [descL, hdesc]
  · obtain ⟨hd1, hd2, hd3, hd4⟩ := hd d hdesc
    simp only [hdesc]
    rw [List.cons_append, List.foldl_cons,
      parseLine_descFirst _ ((splitOnChar '\n' d).headD []) (by rfl)
        (descHead_ne_nil d hd1 hd2) hd3]
    rw [List.foldl_append]
    rw [foldl_descCont (splitOnChar '\n' d).tail hd4 _ (by rfl) (by rfl)]
    rw [List.foldl_cons,
      parseLine_declaredColl _ (t.name, none) t.origin (by rfl) (by rfl) ho2 ho1 ho4,
      List.foldl_cons, parseLine_blank _ (by rfl)]
    simp only [descL, hdesc, List.nil_append, List.singleton_append]
    rw [← split_eq_head_cons_tail]
    rfl

theorem finish_expected (t : ToolInfo) (ht : RoundTrippable t) :
    finishTool (t.name, some t.origin) (descL t) = expectedOf t := by
  rcases hdesc : t.description with _ | ⟨d⟩
  · simp [finishTool, descL, hdesc, expectedOf]
  · obtain ⟨hd1, hd2, -, -⟩ := ht.2.2.2.2.2.2.2.2 d hdesc
    have hne : splitOnChar '\n' d ≠ [] := splitOnChar_ne_nil '\n' d
    simp only [finishTool, descL, hdesc, expectedOf]
    rw [if_pos hne, joinChar_splitOnChar, hd2]

theorem parse_run (ts : List ToolInfo) (hts : ∀ t ∈ ts, RoundTrippable t) :
    ∀ acc cur dls,
      parseFinish (List.foldl parseLine ⟨acc, cur, false, dls⟩
        ((ts.map chunkLines).flatten))
        = acc ++ savedOf cur dls ++ ts.map expectedOf := by
  induction ts with
  | nil =>
    intro acc cur dls
    simp only [List.map_nil, List.flatten_nil, List.foldl_nil, List.append_nil]
    rcases cur with _ | ⟨c⟩ <;> simp [parseFinish, savedOf]
  | cons t ts' ih =>
    intro acc cur dls
    have ht := hts t (List.mem_cons_self t ts')
    rw [List.map_cons, List.flatten_cons, List.foldl_append,
      parse_chunk t ht acc cur dls,
      ih (fun x hx => hts x (List.mem_cons_of_mem t hx))]
    rw [savedOf, finish_expected t ht]
    simp

theorem formatEntry_lines (t : ToolInfo) (ht : RoundTrippable t) :
    ((formatEntry t).map (splitOnChar '\n')).flatten = chunkLines t := by
  obtain ⟨hn1, hn2, hn3, -, ho1, ho2, ho3, -, hd⟩ := ht
  have hnamesplit : splitOnChar '\n' (nameSpTag ++ t.name) = [nameSpTag ++ t.name] := by
    apply splitOnChar_not_mem
    intro hmem
    rw [List.mem_append] at hmem
    rcases hmem with hmem | hmem
    · revert hmem
      decide
    · exact hn3 hmem
  have hdeclsplit : splitOnChar '\n' (declSpTag ++ t.origin ++ ['\n'])
      = [declSpTag ++ t.origin, []] := by
    have hshape : declSpTag ++ t.origin ++ ['\n']
        = (declSpTag ++ t.origin) ++ ('\n' :: []) := by simp
    rw [hshape, splitOnChar_append_cons]
    have h1 : splitOnChar '\n' (declSpTag ++ t.origin) = [declSpTag ++ t.origin] := by
      apply splitOnChar_not_mem
      intro hmem
      rw [List.mem_append] at hmem
      rcases hmem with hmem | hmem
      · revert hmem
        decide
      · exact ho3 hmem
    rw [h1]
    rfl
  rcases hdesc : t.description with _ | ⟨d⟩
  · rw [formatEntry, hdesc, chunkLines, hdesc]
    simp only [List.map_cons, List.map_nil, List.map_append, List.flatten_cons,
      List.flatten_nil, List.flatten_append, List.nil_append, List.append_nil]
    rw [hnamesplit, hdeclsplit]
    rfl
  · obtain ⟨hd1, hd2, -, -⟩ := hd d hdesc
    have hdl0 : '\n' ∉ descSpTag ++ (splitOnChar '\n' d).headD [] := by
      intro hmem
      rw [List.mem_append] at hmem
      rcases hmem with hmem | hmem
      · revert hmem
        decide
      · refine not_mem_of_mem_splitOnChar '\n' d ((splitOnChar '\n' d).headD [])
          ?_ hmem
        rw [split_eq_head_cons_tail '\n' d]
        exact List.mem_cons_self _ _
    have hdescsplit : splitOnChar '\n' (descSpTag ++ d)
        = (descSpTag ++ (splitOnChar '\n' d).headD []) :: (splitOnChar '\n' d).tail := by
      rcases hsp : splitOnChar '\n' d with _ | ⟨dl0, dlrest⟩
      · exact absurd hsp (splitOnChar_ne_nil '\n' d)
      · rcases dlrest with _ | ⟨dl1, dlrest'⟩
        · have hdj : d = dl0 := by
            have hj := joinChar_splitOnChar '\n' d
            rw [hsp] at hj
            exact hj.symm
          rw [hsp] at hdl0
          simp only [List.headD_cons, List.tail_cons] at hdl0
          simp only [List.headD_cons, List.tail_cons]
          rw [hdj]
          exact splitOnChar_not_mem '\n' _ hdl0
        · have hdj : d = dl0 ++ '\n' :: joinChar '\n' (dl1 :: dlrest') := by
            have hj := joinChar_splitOnChar '\n' d
            rw [hsp] at hj
            have hjc : joinChar '\n' (dl0 :: dl1 :: dlrest')
                = dl0 ++ '\n' :: joinChar '\n' (dl1 :: dlrest') := rfl
            rw [hjc] at hj
            exact hj.symm
          conv_lhs => rw [hdj]
          rw [← List.append_assoc, splitOnChar_append_cons]
          rw [hsp] at hdl0
          simp only [List.headD_cons, List.tail_cons] at hdl0 ⊢
          rw [splitOnChar_not_mem '\n' _ hdl0]
          have htails : splitOnChar '\n' (joinChar '\n' (dl1 :: dlrest'))
              = dl1 :: dlrest' := by
            apply splitOnChar_join_of_no_sep '\n' (dl1 :: dlrest') (by simp)
            intro e he
            refine not_mem_of_mem_splitOnChar '\n' d e ?_
            rw [hsp]
            exact List.mem_cons_of_mem dl0 he
          rw [htails]
          rfl
    rw [formatEntry, hdesc, chunkLines, hdesc]
    dsimp only
    rw [if_pos hd1]
    simp only [List.map_cons, List.map_nil, List.map_append, List.flatten_cons,
      List.flatten_nil, List.flatten_append, List.nil_append, List.append_nil]
    rw [hnamesplit, hdeclsplit, hdescsplit]
    rfl

theorem flatten_entry_lines (ts : List ToolInfo)
    (hts : ∀ t ∈ ts, RoundTrippable t) :
    (((ts.map formatEntry).flatten).map (splitOnChar '\n')).flatten
      = (ts.map chunkLines).flatten := by
  induction ts with
  | nil => rfl
  | cons t ts' ih =>
    rw [List.map_cons, List.flatten_cons, List.map_append, List.flatten_append,
      formatEntry_lines t (hts t (List.mem_cons_self t ts')),
      ih (fun x hx => hts x (List.mem_cons_of_mem t hx))]
    rw [List.map_cons, List.flatten_cons]

theorem format_lines (ts : List ToolInfo) (hts : ∀ t ∈ ts, RoundTrippable t)
    (hne : ts ≠ []) :
    splitOnChar '\n' (format_results ts)
      = headerTag :: [] :: (ts.map chunkLines).flatten := by
  rw [format_results, if_neg hne]
  rw [splitOnChar_joinChar_flatten '\n' _ (by simp)]
  have hheader : splitOnChar '\n' headerEntry = [headerTag, []] := by decide
  rw [List.map_cons, List.flatten_cons, hheader, flatten_entry_lines ts hts]
  rfl

/-- C5, amended: rendering a list of well-formed tool records with
`format_results` and parsing the text back with `parse_tools_output`
re-derives the same structured sequence, each record's origin wrapped in
`some`; well-formed means names and origins non-empty, trimmed,
newline-free and marker-free, and descriptions either absent or non-empty,
trimmed, with first line trimmed and continuation lines that do not mimic
the parser's `- Name:` / `  Description:` / `  Declared in:` / header
marker lines.  (The unrestricted claim fails: see the counterexample.) -/
theorem parse_format_roundtrip (ts : List ToolInfo)
    (hts : ∀ t ∈ ts, RoundTrippable t) :
    parse_tools_output (format_results ts)
      = ts.map (fun t =>
          ({ name := t.name, description := t.description,
             origin := some t.origin } : ParsedTool)) := by
  have hexp : ts.map (fun t =>
      ({ name := t.name, description := t.description,
         origin := some t.origin } : ParsedTool)) = ts.map expectedOf := rfl
  rw [hexp]
  rcases hts' : ts with _ | ⟨t, ts'⟩
  · decide
  · rw [← hts']
    have hne : ts ≠ [] := by rw [hts']; simp
    rw [parse_tools_output_eq, format_lines ts hts hne]
    rw [List.foldl_cons, List.foldl_cons, parseLine_header, parseLine_blank _ rfl]
    have hrun := parse_run ts hts [] none []
    simp only [savedOf, List.nil_append] at hrun
    exact hrun

/-- A tool whose description is present but empty. -/
def cexTool : ToolInfo :=
  { name := "g".toList, description := some [], origin := "o".toList }

/-- Counterexample for C5: a record with description `some ""` renders with
its Description line omitted (Python truthiness), and parsing returns
description `None` — the parsed sequence differs from the original, so the
unconditional round-trip claim fails. -/
theorem parse_format_counterexample :
    (parse_tools_output (format_results [cexTool])).map ParsedTool.description
      = [none]
    ∧ cexTool.description = some []
    ∧ some ([] : Str) ≠ (none : Option Str) := by decide

/-- A well-formed tool with a multi-line description. -/
def wrtTool : ToolInfo :=
  { name := "beta".toList, description := some ("First.\nSecond line.".toList),
    origin := "b/c.ts".toList }

/-- Witness for the amended C5: a record with a two-line description
round-trips exactly. -/
theorem parse_format_roundtrip_witness :
    parse_tools_output (format_results [wrtTool])
      = [wrtTool].map (fun t =>
          ({ name := t.name, description := t.description,
             origin := some t.origin } : ParsedTool)) := by
  refine parse_format_roundtrip [wrtTool] ?_
  intro t ht
  rw [List.mem_singleton] at ht
  subst ht
  refine ⟨by decide, by decide, by decide, by decide, by decide, by decide,
    by decide, by decide, ?_⟩
  intro d hd
  have hd' : d = "First.\nSecond line.".toList := by
    have := hd
    simp only [wrtTool] at this
    exact (Option.some.injEq _ _ ▸ this).symm
  subst hd'
  exact ⟨by decide, by decide, by decide, by decide⟩

/-! ## The Python decorator detector (mcp_tool_inspector lines 88-97, 168-199)

A small Python AST is embedded: the expression forms `_is_tool_decorator`
inspects (`ast.Name`, `ast.Attribute`, `ast.Call` — only the callee matters
to it) and function definitions with their decorator lists and docstrings
(`ast.get_docstring` is the stored docstring).  `visit_FunctionDef` and
`visit_AsyncFunctionDef` record the docstring under the function's name and
call `_maybe_collect_from_decorators`, whose dictionary lookup therefore
yields the node's own docstring; the class- and call-based paths of the
visitor are separate detectors not involved in these claims. -/

/-- Python `str.lower()` (ASCII). -/
def pyLower (s : Str) : Str := s.map Char.toLower

/-- Decorator expressions: a plain name, an attribute access, a call (only
its callee is inspected), or any other expression form. -/
inductive PyExpr where
  | name (id : Str)
  | attribute (base : PyExpr) (attr : Str)
  | call (func : PyExpr)
  | other
  deriving DecidableEq

/-- `_is_tool_decorator` (lines 88-97). -/
def is_tool_decorator : PyExpr → Bool
  | .name id => decide (pyLower id = "tool".toList)
  | .attribute _ attr =>
    decide (pyLower attr = "tool".toList ∨ pyLower attr = "register_tool".toList)
  | .call f => is_tool_decorator f
  | .other => false

/-- A function or async-function definition: name, stored docstring
(`ast.get_docstring`), decorator list, and the async flag (both kinds are
handled identically). -/
structure PyFunctionDef where
  name : Str
  docstring : Option Str
  decorators : List PyExpr
  isAsync : Bool
  deriving DecidableEq

/-- `_maybe_collect_from_decorators` (lines 189-199) for one visited
function definition: the empty-decorator early return, the any-check, and
the emitted record with the function's own docstring as description. -/
def maybe_collect_from_decorators (modulePath : Str) (node : PyFunctionDef) :
    List ToolInfo :=
  if node.decorators ≠ [] ∧ node.decorators.any is_tool_decorator then
    [{ name := node.name, description := node.docstring, origin := modulePath }]
  else []

/-- A top-level statement, as far as the decorator path observes it. -/
inductive PyStmt where
  | funcDef (f : PyFunctionDef)
  | other
  deriving DecidableEq

/-- The decorator-collection path of `MCPToolAnalyzer` over a module's
function definitions (visit_FunctionDef / visit_AsyncFunctionDef). -/
def analyzePyModule (modulePath : Str) (stmts : List PyStmt) : List ToolInfo :=
  (stmts.map (fun s =>
    match s with
    | .funcDef f => maybe_collect_from_decorators modulePath f
    | .other => [])).flatten

/-- A function decorated with the plain name `register_tool`. -/
def cexRegisterToolDef : PyFunctionDef :=
  { name := "f".toList, docstring := none,
    decorators := [PyExpr.name ("register_tool".toList)], isAsync := false }

/-- A function decorated with `@tool` carrying a two-line docstring. -/
def cexMultiDocDef : PyFunctionDef :=
  { name := "g".toList, docstring := some ("Line1.\nLine2.".toList),
    decorators := [PyExpr.name ("tool".toList)], isAsync := false }

/-- Counterexample for C6: a plain-name `register_tool` decorator is not
accepted (`_is_tool_decorator` only accepts the plain name `tool`;
`register_tool` qualifies solely as an attribute), and the emitted
description is the whole docstring, not its first line. -/
theorem decorator_claim_counterexample :
    maybe_collect_from_decorators ("m.py".toList) cexRegisterToolDef = []
    ∧ maybe_collect_from_decorators ("m.py".toList) cexMultiDocDef
      = [{ name := "g".toList, description := some ("Line1.\nLine2.".toList),
           origin := "m.py".toList }]
    ∧ some ("Line1.\nLine2.".toList) ≠ some ("Line1.".toList) := by decide

/-- C6, amended: a function or async-function definition whose decorator
list contains a plain name equal to `tool` (case-insensitively), an
attribute access whose final attribute equals `tool` or `register_tool`
(case-insensitively), or a call whose callee resolves to one of those, is
emitted as a ToolInfo with the function's name, the function's full
docstring (when present) as description, and the file path as origin; a
definition with no qualifying decorator is not emitted. -/
theorem decorator_emission (path : Str) (f : PyFunctionDef) :
    (f.decorators.any is_tool_decorator = true →
      maybe_collect_from_decorators path f
        = [{ name := f.name, description := f.docstring, origin := path }])
    ∧ (f.decorators.any is_tool_decorator = false →
      maybe_collect_from_decorators path f = [])
    ∧ (∀ id, is_tool_decorator (PyExpr.name id)
        = decide (pyLower id = "tool".toList))
    ∧ (∀ b attr, is_tool_decorator (PyExpr.attribute b attr)
        = decide (pyLower attr = "tool".toList
            ∨ pyLower attr = "register_tool".toList))
    ∧ (∀ e, is_tool_decorator (PyExpr.call e) = is_tool_decorator e) := by
  refine ⟨?_, ?_, fun id => rfl, fun b attr => rfl, fun e => rfl⟩
  · intro hany
    have hne : f.decorators ≠ [] := by
      intro he
      rw [he] at hany
      simp at hany
    rw [maybe_collect_from_decorators, if_pos ⟨hne, hany⟩]
  · intro hany
    rw [maybe_collect_from_decorators, if_neg]
    intro hand
    rw [hany] at hand
    exact absurd hand.2 (by simp)

/-- The `@tool def search` example function of the spec. -/
def wSearchDef : PyFunctionDef :=
  { name := "search".toList, docstring := some ("Search the web.".toList),
    decorators := [PyExpr.name ("tool".toList)], isAsync := false }

/-- Witness for the amended C6: the spec's Example 1 emits
`ToolInfo("search", "Search the web.", file)`. -/
theorem decorator_emission_witness :
    maybe_collect_from_decorators ("file.py".toList) wSearchDef
      = [{ name := "search".toList,
           description := some ("Search the web.".toList),
           origin := "file.py".toList }] :=
  (decorator_emission ("file.py".toList) wSearchDef).1 (by decide)

/-! ## The TypeScript/JavaScript detector (mcp_tool_inspector lines 288-625)

The four module-level regular expressions and the two dynamic field
patterns are translated into explicit matchers with Python `re` semantics
(leftmost match, alternatives in order, lazy quantifiers scan to the first
viable close, `finditer` resumes at each match's end).  A matcher takes the
remaining source suffix and returns the number of characters consumed plus
its captures; `finditer` also hands each match the suffix that follows it,
which is what the balanced-segment scanner consumes when the code calls
`_extract_balanced_segment(source, match.end() - 1, ...)`. -/

/-- Python truthiness of an optional string. -/
def pyTruthy : Option Str → Bool
  | some s => s ≠ []
  | none => false

/-- Match a literal at the head of the suffix. -/
def matchLit (lit s : Str) : Option Nat :=
  if lit.isPrefixOf s then some lit.length else none

/-- `\s*`: the length of the whitespace prefix. -/
def takeWs (s : Str) : Nat := (s.takeWhile pyIsSpace).length

/-- `\s+`: at least one whitespace character. -/
def takeWs1 (s : Str) : Option Nat :=
  let n := takeWs s
  if n = 0 then none else some n

/-- `[A-Za-z_]`. -/
def isIdentStart (c : Char) : Bool := c.isAlpha || c = '_'

/-- `[A-Za-z0-9_]`. -/
def isIdentChar (c : Char) : Bool := c.isAlphanum || c = '_'

/-- `[A-Za-z_][A-Za-z0-9_]*`: an identifier at the head of the suffix. -/
def matchIdent : Str → Option Nat
  | [] => none
  | c :: rest =>
    if isIdentStart c then some (1 + (rest.takeWhile isIdentChar).length) else none

/-- The quote characters of the detector patterns. -/
def isQuote (c : Char) : Bool := c = '\'' || c = '"' || c = backquote

/-- `re.finditer` for a matcher: scan left to right, emit each match's
captures together with the suffix following the match, resume after it. -/
def finditer {α : Type} (m : Str → Option (Nat × α)) : Str → List (α × Str)
  | [] => []
  | ch :: rest =>
    match m (ch :: rest) with
    | some (k, a) =>
      (a, (ch :: rest).drop k) :: finditer m ((ch :: rest).drop (max k 1))
    | none => finditer m rest
termination_by s => s.length
decreasing_by
  · simp only [List.length_drop, List.length_cons]
    omega
  · simp

/-- `_unquote` (lines 341-344). -/
def unquote (value : Str) : Str :=
  let v :=
    if 2 ≤ value.length ∧ value.head? = value.getLast?
        ∧ (value.head? = some '\'' ∨ value.head? = some '"'
           ∨ value.head? = some backquote) then
      (value.drop 1).dropLast
    else value
  replaceAll ['\\', backquote] [backquote]
    (replaceAll ['\\', '"'] ['"'] (replaceAll ['\\', '\''] ['\''] v))

/-- The lazy body-and-close of `STRING_LITERAL_PATTERN` after its opening
quote: an escaped pair consumes two characters, the first unescaped
occurrence of the quote closes. -/
def strLitScan (q : Char) : Str → Option Str
  | [] => none
  | c :: rest =>
    if c = q then some [c]
    else if c = '\\' then
      match rest with
      | d :: rest2 => (strLitScan q rest2).map (fun t => c :: d :: t)
      | [] => none
    else (strLitScan q rest).map (c :: ·)
termination_by s => s.length
decreasing_by
  all_goals simp_arith

/-- `STRING_LITERAL_PATTERN.match` (lines 288-297): a quoted literal at the
head of the suffix; returns the whole match including its quotes. -/
def matchStringLiteral : Str → Option Str
  | [] => none
  | q :: rest =>
    if isQuote q then (strLitScan q rest).map (q :: ·) else none

/-- The first occurrence of character `q` (lazy `.*?` of a DOTALL pattern
closed by a back-referenced delimiter): the characters consumed up to and
including it. -/
def lazyToChar (q : Char) : Str → Option Str
  | [] => none
  | c :: rest =>
    if c = q then some [c]
    else (lazyToChar q rest).map (c :: ·)

/-- The dynamic pattern of `_extract_field_from_object` (lines 455-458)
applied at the head of the suffix: the field name, `\s*:\s*`, then a quoted
value closed by the first occurrence of its delimiter (no escapes).
Returns the value group with its quotes. -/
def fieldValueAt (field s : Str) : Option Str :=
  match matchLit field s with
  | none => none
  | some k1 =>
    let s1 := s.drop k1
    let s2 := s1.drop (takeWs s1)
    match s2 with
    | ':' :: s3 =>
      let s4 := s3.drop (takeWs s3)
      match s4 with
      | q :: s5 =>
        if isQuote q then (lazyToChar q s5).map (fun v => q :: v) else none
      | [] => none
    | _ => none

/-- `re.search` with a word boundary before the (word-initial) field name:
try every position whose predecessor is not a word character. -/
def searchFieldAux (field : Str) : Option Char → Str → Option Str
  | _, [] => none
  | prev, c :: rest =>
    let boundary :=
      match prev with
      | none => true
      | some p => !(isIdentChar p)
    match (if boundary then fieldValueAt field (c :: rest) else none) with
    | some v => some v
    | none => searchFieldAux field (some c) rest

/-- `_extract_field_from_object` (lines 454-462). -/
def extract_field_from_object (text field : Str) : Option Str :=
  (searchFieldAux field none text).map unquote

/-- `_parse_tool_object` (lines 465-478), with Python truthiness for the
fallbacks (`title` for a falsy name, `summary` via `or`). -/
def parse_tool_object (objText : Str) (origin : Str) : Option ToolInfo :=
  let name0 := extract_field_from_object objText ("name".toList)
  let name1 := if pyTruthy name0 then name0
    else extract_field_from_object objText ("title".toList)
  match name1 with
  | some n =>
    if n ≠ [] then
      let d0 := extract_field_from_object objText ("description".toList)
      let description := if pyTruthy d0 then d0
        else extract_field_from_object objText ("summary".toList)
      some { name := n, description := description, origin := origin }
    else none
  | none => none

/-- The literal branch of `_extract_property_value` (lines 482-488) applied
at a line start: `\s*`, optional `this.`, the property name with a
no-word-character lookahead, `\s*=\s*`, then a quoted value closed by the
first occurrence of its delimiter. -/
def propLiteralAt (prop s : Str) : Option Str :=
  let s1 := s.drop (takeWs s)
  let afterThis :=
    match matchLit ("this.".toList) s1 with
    | some k =>
      match matchLit prop (s1.drop k) with
      | some k2 => some (s1.drop (k + k2))
      | none =>
        match matchLit prop s1 with
        | some k2 => some (s1.drop k2)
        | none => none
    | none =>
      match matchLit prop s1 with
      | some k2 => some (s1.drop k2)
      | none => none
  match afterThis with
  | none => none
  | some s2 =>
    match s2.head? with
    | some c => if isIdentChar c then none else matchPropValue s2
    | none => none
where
  /-- `\s*=\s*` then the quoted value. -/
  matchPropValue (s2 : Str) : Option Str :=
    let s3 := s2.drop (takeWs s2)
    match s3 with
    | '=' :: s4 =>
      let s5 := s4.drop (takeWs s4)
      match s5 with
      | q :: s6 =>
        if isQuote q then (lazyToChar q s6).map (fun v => q :: v) else none
      | [] => none
    | _ => none

/-- The identifier branch of `_extract_property_value` (lines 490-495)
applied at a line start. -/
def propIdentAt (prop s : Str) : Option Str :=
  let s1 := s.drop (takeWs s)
  let afterThis :=
    match matchLit ("this.".toList) s1 with
    | some k =>
      match matchLit prop (s1.drop k) with
      | some k2 => some (s1.drop (k + k2))
      | none =>
        match matchLit prop s1 with
        | some k2 => some (s1.drop k2)
        | none => none
    | none =>
      match matchLit prop s1 with
      | some k2 => some (s1.drop k2)
      | none => none
  match afterThis with
  | none => none
  | some s2 =>
    match s2.head? with
    | some c =>
      if isIdentChar c then none
      else
        let s3 := s2.drop (takeWs s2)
        match s3 with
        | '=' :: s4 =>
          let s5 := s4.drop (takeWs s4)
          match matchIdent s5 with
          | some k =>
            let s6 := s5.drop k
            let s7 := s6.drop (takeWs s6)
            match s7 with
            | ';' :: _ => some (s5.take k)
            | _ => none
          | none => none
        | _ => none
    | none => none

/-- `re.search` with a MULTILINE `^` anchor: try the start of the text and
every position following a newline. -/
def searchLineStartAux {α : Type} (m : Str → Option α) : Bool → Str → Option α
  | atStart, s =>
    match (if atStart then m s else none) with
    | some v => some v
    | none =>
      match s with
      | [] => none
      | c :: rest => searchLineStartAux m (c = '\n') rest

/-- `_extract_property_value` (lines 481-499): the literal pattern first,
then the identifier pattern resolved against the collected constants. -/
def extract_property_value (body prop : Str) (constants : List (Str × Str)) :
    Option Str :=
  match searchLineStartAux (propLiteralAt prop) true body with
  | some v => some (unquote v)
  | none =>
    match searchLineStartAux (propIdentAt prop) true body with
    | some ident =>
      match constants.find? (fun kv => kv.1 = ident) with
      | some kv => some kv.2
      | none => none
    | none => none

/-- The lazy value-and-terminator of `CONST_LITERAL_PATTERN` after its
opening delimiter: each candidate occurrence of the delimiter is tried as
the close, accepted only when `\s*;` follows (backtracking of `.*?` before
`\s*;`).  Returns the characters consumed through the close and the extra
characters of `\s*;`. -/
def constValueScan (q : Char) : Str → Option (Nat × Nat)
  | [] => none
  | c :: rest =>
    if c = q then
      let w := takeWs rest
      match (rest.drop w).head? with
      | some ';' =>
        some (1, w + 1)
      | _ =>
        match constValueScan q rest with
        | some (k, m) => some (k + 1, m)
        | none => none
    else
      match constValueScan q rest with
      | some (k, m) => some (k + 1, m)
      | none => none

/-- The common `(?:export\s+)?const\s+identifier` head of the two `const`
patterns: returns the characters consumed and the identifier. -/
def matchConstHead (s : Str) : Option (Nat × Str) :=
  let inner := fun (s1 : Str) (base : Nat) =>
    match matchLit ("const".toList) s1 with
    | none => none
    | some k1 =>
      match takeWs1 (s1.drop k1) with
      | none => none
      | some w1 =>
        let s2 := s1.drop (k1 + w1)
        match matchIdent s2 with
        | none => none
        | some ki => some (base + k1 + w1 + ki, s2.take ki)
  match matchLit ("export".toList) s with
  | some ke =>
    match takeWs1 (s.drop ke) with
    | none => inner s 0
    | some we =>
      match inner (s.drop (ke + we)) (ke + we) with
      | some r => some r
      | none => inner s 0
  | none => inner s 0

/-- `CONST_LITERAL_PATTERN` (lines 325-334) at the head of the suffix:
`(?:export\s+)?const identifier = <quoted value> ;`.  Captures the
identifier and the value group (with quotes). -/
def matchConstLiteral (s : Str) : Option (Nat × (Str × Str)) :=
  match matchConstHead s with
  | none => none
  | some (kh, ident) =>
    let s3 := s.drop kh
    let w2 := takeWs s3
    match s3.drop w2 with
    | '=' :: s4 =>
      let w3 := takeWs s4
      let s5 := s4.drop w3
      match s5 with
      | q :: s6 =>
        if isQuote q then
          match constValueScan q s6 with
          | some (k, m) =>
            some (kh + w2 + 1 + w3 + 1 + k + m, (ident, q :: s6.take k))
          | none => none
        else none
      | [] => none
    | _ => none

/-- `TOOL_OBJECT_DECL_PATTERN` (lines 316-323) at the head of the suffix:
`(?:export\s+)?const identifier (: annotation)? = {`, consuming through the
opening brace.  Captures the identifier. -/
def matchToolObjectDecl (s : Str) : Option (Nat × Str) :=
  match matchConstHead s with
  | none => none
  | some (kh, ident) =>
    let s3 := s.drop kh
    let w2 := takeWs s3
    let s4 := s3.drop w2
    let afterAnn :=
      match s4 with
      | ':' :: s5 =>
        let ka := (s5.takeWhile (fun c => c ≠ '=')).length
        if ka = 0 then none else some (w2 + 1 + ka)
      | _ => some w2
    match afterAnn with
    | none => none
    | some ka =>
      match s3.drop ka with
      | '=' :: s6 =>
        let w3 := takeWs s6
        match s6.drop w3 with
        | '{' :: _ => some (kh + ka + 1 + w3 + 1, ident)
        | _ => none
      | _ => none

/-- `CLASS_BASETOOL_PATTERN` (lines 336-338) at the head of the suffix:
`(?:export\s+)?class Name extends BaseTool {`, consuming through the
opening brace.  Captures the class name. -/
def matchClassBaseTool (s : Str) : Option (Nat × Str) :=
  let inner := fun (s1 : Str) (base : Nat) =>
    match matchLit ("class".toList) s1 with
    | none => none
    | some k1 =>
      match takeWs1 (s1.drop k1) with
      | none => none
      | some w1 =>
        let s2 := s1.drop (k1 + w1)
        match matchIdent s2 with
        | none => none
        | some ki =>
          match takeWs1 (s2.drop ki) with
          | none => none
          | some w2 =>
            match matchLit ("extends".toList) (s2.drop (ki + w2)) with
            | none => none
            | some k2 =>
              match takeWs1 (s2.drop (ki + w2 + k2)) with
              | none => none
              | some w3 =>
                match matchLit ("BaseTool".toList) (s2.drop (ki + w2 + k2 + w3)) with
                | none => none
                | some k3 =>
                  let s7 := s2.drop (ki + w2 + k2 + w3 + k3)
                  let w4 := takeWs s7
                  match s7.drop w4 with
                  | '{' :: _ =>
                    some (base + k1 + w1 + ki + w2 + k2 + w3 + k3 + w4 + 1,
                      s2.take ki)
                  | _ => none
  match matchLit ("export".toList) s with
  | some ke =>
    match takeWs1 (s.drop ke) with
    | none => inner s 0
    | some we =>
      match inner (s.drop (ke + we)) (ke + we) with
      | some r => some r
      | none => inner s 0
  | none => inner s 0

/-- `TOOL_CALL_PATTERN` (lines 299-314) at the head of the suffix: the
alternatives in the order of the pattern; lookaheads are not consumed.
Captures the matched prefix text. -/
def matchToolCall (s : Str) : Option (Nat × Str) :=
  match matchLit ("register".toList) s with
  | some k =>
    let kl := ((s.drop k).takeWhile Char.isAlpha).length
    some (k + kl, s.take (k + kl))
  | none =>
  match matchLit ("addTool".toList) s with
  | some k => some (k, s.take k)
  | none =>
  match matchLit ("defineTool".toList) s with
  | some k => some (k, s.take k)
  | none =>
  match matchLit ("createTool".toList) s with
  | some k => some (k, s.take k)
  | none =>
  match matchLit ("tool".toList) s with
  | some k =>
    let after := s.drop k
    if (after.drop (takeWs after)).head? = some '(' then some (k, s.take k)
    else matchToolCallRest s
  | none =>
  matchToolCallRest s
where
  /-- The alternatives after `tool(?=\s*\()`. -/
  matchToolCallRest (s : Str) : Option (Nat × Str) :=
    match matchLit (".tool".toList) s with
    | some k =>
      let after := s.drop k
      if (after.drop (takeWs after)).head? = some '(' then some (k, s.take k)
      else matchToolCallRest2 s
    | none => matchToolCallRest2 s
  /-- The alternatives after `\.tool(?=\s*\()`. -/
  matchToolCallRest2 (s : Str) : Option (Nat × Str) :=
    match matchLit ("toolRegistry.".toList) s with
    | some k =>
      let kl := ((s.drop k).takeWhile Char.isAlpha).length
      if kl = 0 then matchToolCallRest3 s else some (k + kl, s.take (k + kl))
    | none => matchToolCallRest3 s
  /-- The alternatives after `toolRegistry\.[A-Za-z]+`. -/
  matchToolCallRest3 (s : Str) : Option (Nat × Str) :=
    match matchLit ("tool".toList) s with
    | some k =>
      let ks := if (s.drop k).head? = some 's' then k + 1 else k
      let s1 := s.drop ks
      let w1 := takeWs s1
      match s1.drop w1 with
      | ':' :: s2 =>
        let w2 := takeWs s2
        match s2.drop w2 with
        | '[' :: _ => some (ks + w1 + 1 + w2 + 1, s.take (ks + w1 + 1 + w2 + 1))
        | _ => matchToolCallRest4 s
      | _ => matchToolCallRest4 s
    | none => matchToolCallRest4 s
  /-- The last alternative. -/
  matchToolCallRest4 (s : Str) : Option (Nat × Str) :=
    match matchLit ("aibitat.function".toList) s with
    | some k => some (k, s.take k)
    | none => none

/-- The balanced-segment scan started just after an opening delimiter:
equal to `_extract_balanced_segment(source, i, open, close)` when position
`i` holds `openChar` and `rest` is the text after it (see
`extract_balanced_segment_after_open`). -/
def extractBalancedAfterOpen (openChar closeChar : Char) (rest : Str) : Option Str :=
  extractLoop openChar closeChar none false 1 rest

theorem extract_balanced_segment_after_open (pre rest : Str) (o c : Char) :
    extract_balanced_segment (pre ++ o :: rest) pre.length o c
      = extractBalancedAfterOpen o c rest := by
  rw [extract_balanced_segment, List.drop_left]
  dsimp only
  rw [if_pos rfl, extractBalancedAfterOpen]

/-- Python dict assignment `constants[k] = v`. -/
def dictAssign (k v : Str) (cs : List (Str × Str)) : List (Str × Str) :=
  if cs.any (fun kv => kv.1 = k) then
    cs.map (fun kv => if kv.1 = k then (k, v) else kv)
  else cs ++ [(k, v)]

/-- Python `constants.setdefault(k, v)`. -/
def dictSetdefault (k v : Str) (cs : List (Str × Str)) : List (Str × Str) :=
  if cs.any (fun kv => kv.1 = k) then cs else cs ++ [(k, v)]

/-- The body of the `TOOL_CALL_PATTERN` loop (lines 554-623) for one match:
`pfx` is the matched prefix text, `restAfter` the source following the match. -/
def toolCallBody (relativePath : Str) (pfx restAfter : Str) : List ToolInfo :=
  let rest' := restAfter.dropWhile pyIsSpace
  if rest' = [] then []
  else if endsWith ['['] (strip pfx) then
    match extractBalancedAfterOpen '[' ']' restAfter with
    | none => []
    | some block =>
      (split_top_level block ',').foldl
        (fun acc el =>
          let el' := strip el
          if startsWith ['{'] el' then
            match parse_tool_object el' relativePath with
            | some info => acc ++ [info]
            | none => acc
          else acc) []
  else if rest'.head? ≠ some '(' then []
  else
    match extractBalancedAfterOpen '(' ')' (rest'.drop 1) with
    | none => []
    | some args =>
      let arg_parts := split_top_level args ','
      if arg_parts = [] then []
      else
        let first_arg := arg_parts.headD []
        if startsWith ['{'] first_arg then
          match parse_tool_object first_arg relativePath with
          | some info => [info]
          | none => []
        else
          let name := (matchStringLiteral (strip first_arg)).map unquote
          let description :=
            if 1 < arg_parts.length then
              let second := (arg_parts.drop 1).headD []
              if startsWith ['{'] second then
                match parse_tool_object second relativePath with
                | some info => info.description
                | none => none
              else (matchStringLiteral (strip second)).map unquote
            else none
          (match name with
           | some n => [{ name := n, description := description, origin := relativePath }]
           | none => []) ++
          (match name with
           | some _ => []
           | none =>
             if startsWith ['['] first_arg then
               (split_top_level (((strip first_arg).drop 1).dropLast) ',').foldl
                 (fun acc el =>
                   if startsWith ['{'] (strip el) then
                     match parse_tool_object el relativePath with
                     | some info => acc ++ [info]
                     | none => acc
                   else acc) []
             else [])

/-- `analyze_typescript_source` (lines 524-625): constant collection, the
object-declaration loop (with `setdefault` of discovered names), the
`BaseTool`-class loop resolving properties against the constants, and the
tool-call loop. -/
def analyze_typescript_source (source : Str) (relativePath : Str) : List ToolInfo :=
  let constants0 := (finditer matchConstLiteral source).foldl
    (fun cs m => dictAssign m.1.1 (unquote m.1.2) cs) []
  let step1 := (finditer matchToolObjectDecl source).foldl
    (fun (acc : List ToolInfo × List (Str × Str)) m =>
      match extractBalancedAfterOpen '{' '}' m.2 with
      | none => acc
      | some block =>
        match parse_tool_object block relativePath with
        | some info => (acc.1 ++ [info], dictSetdefault m.1 info.name acc.2)
        | none => acc)
    (([] : List ToolInfo), constants0)
  let tools1 := step1.1
  let constants1 := step1.2
  let tools2 := tools1 ++ (finditer matchClassBaseTool source).foldl
    (fun acc m =>
      match extractBalancedAfterOpen '{' '}' m.2 with
      | none => acc
      | some body =>
        let name := extract_property_value body ("name".toList) constants1
        let description := extract_property_value body ("description".toList) constants1
        match name with
        | some n => acc ++ [{ name := n, description := description, origin := relativePath }]
        | none => acc) []
  tools2 ++ (finditer matchToolCall source).foldl
    (fun acc m => acc ++ toolCallBody relativePath m.1 m.2) []

/-- `analyze_go_source` (lines 502-521): the `NewTool("name", "description"`
pattern at the head of the suffix. -/
def matchNewTool (s : Str) : Option (Nat × (Str × Str)) :=
  match matchLit ("NewTool".toList) s with
  | none => none
  | some k1 =>
    let w1 := takeWs (s.drop k1)
    match s.drop (k1 + w1) with
    | '(' :: s2 =>
      let w2 := takeWs s2
      match s2.drop w2 with
      | '"' :: s3 =>
        let nm := s3.takeWhile (fun c => c ≠ '"')
        if nm = [] then none
        else
          match s3.drop nm.length with
          | '"' :: s4 =>
            let w3 := takeWs s4
            match s4.drop w3 with
            | ',' :: s5 =>
              let w4 := takeWs s5
              match s5.drop w4 with
              | '"' :: s6 =>
                let ds := s6.takeWhile (fun c => c ≠ '"')
                if ds = [] then none
                else
                  match s6.drop ds.length with
                  | '"' :: _ =>
                    some (k1 + w1 + 1 + w2 + 1 + nm.length + 1 + w3 + 1 + w4 + 1
                      + ds.length + 1, (nm, ds))
                  | _ => none
              | _ => none
            | _ => none
          | _ => none
      | _ => none
    | _ => none

/-- `analyze_go_source` (lines 502-521). -/
def analyze_go_source (source : Str) (relativePath : Str) : List ToolInfo :=
  (finditer matchNewTool source).foldl
    (fun acc m =>
      acc ++ [{ name := m.1.1, description := some m.1.2, origin := relativePath }])
    []

/-- The spec's Example 3 source. -/
def c7Source : Str :=
  "const GREET = \"greet\"; const tool = \x7b name: GREET, description: \"says hi\" \x7d;".toList

unseal replaceAll strLitScan finditer extractLoop in
/-- Counterexample for C7: on the spec's Example 3 the detector yields no
ToolInfo at all — `_extract_field_from_object` requires a quoted literal
after `name:` and performs no constant substitution, so the object
declaration is dropped, and no other pattern matches. -/
theorem ts_constant_substitution_counterexample :
    analyze_typescript_source c7Source ("file.ts".toList) = [] := by decide

unseal replaceAll strLitScan finditer extractLoop in
/-- C7, amended: constant substitution applies in the `BaseTool`-class
path — `_extract_property_value` resolves `name = GREET;` through the
collected module-level constants — while the object-literal path requires
a quoted literal: `name: GREET` yields nothing and `name: "greet"`
succeeds. -/
theorem ts_constant_substitution_class_path :
    analyze_typescript_source
      ("const GREET = \"greet\";\nclass MyTool extends BaseTool \x7b\n  name = GREET;\n\x7d".toList)
      ("file.ts".toList)
      = [{ name := "greet".toList, description := none,
           origin := "file.ts".toList }]
    ∧ extract_field_from_object (" name: GREET, description: \"says hi\" ".toList)
        ("name".toList) = none
    ∧ analyze_typescript_source
        ("const tool = \x7b name: \"greet\", description: \"says hi\" \x7d;".toList)
        ("file.ts".toList)
      = [{ name := "greet".toList, description := some ("says hi".toList),
           origin := "file.ts".toList }] := by decide

/-! ## analyze_repository (lines 626-682)

The repository walk reads files from disk, so a repository is modelled as a
list of files, each carrying its path components relative to the root and
the outcome of reading it: a read failure (`OSError`/`UnicodeDecodeError`),
or decoded text together with the outcome of `ast.parse` on that text (the
Python parse cannot be recomputed from the text inside the model, so it is
part of the file datum; it is consulted only for `.py` files).  The four
`rglob` calls are order-preserving filters on the file list. -/

/-- Outcome of reading (and, for Python, parsing) one file. -/
inductive FileOutcome where
  | readError
  | decoded (content : Str) (pyParsed : Option (List PyStmt))
  deriving DecidableEq

/-- One file of the repository tree: path components relative to the root
(the last component is the file name) and its read outcome. -/
structure RepoFile where
  parts : List Str
  outcome : FileOutcome
  deriving DecidableEq

/-- `SKIP_DIR_NAMES` (lines 20-39). -/
def SKIP_DIR_NAMES : List Str :=
  [(r"node_modules").toList, (r"dist").toList, (r"build").toList,
   (r"public").toList, (r"coverage").toList, (r".next").toList,
   (r"out").toList, (r"__pycache__").toList, (r".venv").toList,
   (r"venv").toList, (r"tmp").toList, (r"temp").toList,
   (r"frontend").toList, (r"locales").toList, (r"__tests__").toList,
   (r"tests").toList, (r"spec").toList, (r"models").toList]

/-- `_should_skip_path` (lines 118-119). -/
def should_skip_path (parts : List Str) : Bool :=
  parts.any (fun part => startsWith ['.'] part || part ∈ SKIP_DIR_NAMES)

/-- The file's name: the last path component (what `rglob` patterns and
`path.name` inspect). -/
def fileName (f : RepoFile) : Str := f.parts.getLastD []

/-- `str(relative_path)`: the components joined with `/`. -/
def renderPath (parts : List Str) : Str := joinChar '/' parts

/-- The contribution of one Python file (lines 636-653): skipped on read
failure or `SyntaxError`, otherwise the visitor's tools. -/
def pyFileTools (f : RepoFile) : List ToolInfo :=
  match f.outcome with
  | .readError => []
  | .decoded _ none => []
  | .decoded _ (some stmts) => analyzePyModule (renderPath f.parts) stmts

/-- The contribution of one TypeScript/JavaScript file (lines 655-669):
minified names are skipped before reading, read failures are skipped. -/
def tsJsFileTools (f : RepoFile) : List ToolInfo :=
  if endsWith (".min.js".toList) (fileName f)
      || endsWith (".min.ts".toList) (fileName f) then []
  else
    match f.outcome with
    | .readError => []
    | .decoded content _ => analyze_typescript_source content (renderPath f.parts)

/-- The contribution of one Go file (lines 671-680). -/
def goFileTools (f : RepoFile) : List ToolInfo :=
  match f.outcome with
  | .readError => []
  | .decoded content _ => analyze_go_source content (renderPath f.parts)

/-- One of the three `for path in ...` loops: skip-filtered per-file
contributions, concatenated. -/
def loopTools (g : RepoFile → List ToolInfo) (l : List RepoFile) : List ToolInfo :=
  (l.map (fun f => if should_skip_path f.parts then [] else g f)).flatten

/-- `analyze_repository` (lines 626-682). -/
def analyze_repository (files : List RepoFile) : List ToolInfo :=
  let python_files := files.filter (fun f => endsWith (".py".toList) (fileName f))
  let ts_files := files.filter (fun f => endsWith (".ts".toList) (fileName f))
    ++ files.filter (fun f => endsWith (".tsx".toList) (fileName f))
  let js_files := files.filter (fun f => endsWith (".js".toList) (fileName f))
    ++ files.filter (fun f => endsWith (".jsx".toList) (fileName f))
  let go_files := files.filter (fun f => endsWith (".go".toList) (fileName f))
  loopTools pyFileTools python_files
    ++ loopTools tsJsFileTools (ts_files ++ js_files)
    ++ loopTools goFileTools go_files

theorem filter_middle (p : RepoFile → Bool) (pre post : List RepoFile)
    (f : RepoFile) :
    List.filter p (pre ++ f :: post)
      = List.filter p pre ++ ((if p f then [f] else []) ++ List.filter p post) := by
  rw [List.filter_append, List.filter_cons]
  cases hp : p f <;> simp

theorem loopTools_append (g : RepoFile → List ToolInfo) (a b : List RepoFile) :
    loopTools g (a ++ b) = loopTools g a ++ loopTools g b := by
  rw [loopTools, List.map_append, List.flatten_append]
  rfl

theorem loopTools_nil_single (g : RepoFile → List ToolInfo) (f : RepoFile)
    (h : g f = []) : loopTools g [f] = [] := by
  rw [loopTools, List.map_cons, List.map_nil]
  cases hs : should_skip_path f.parts <;> simp [h]

theorem endsWith_getLast? (pat l : Str) (h : endsWith pat l = true)
    (hne : pat ≠ []) : l.getLast? = pat.getLast? := by
  rw [endsWith, List.isSuffixOf_iff_suffix] at h
  obtain ⟨pre, hpre⟩ := h
  rw [← hpre]
  exact List.getLast?_append_of_ne_nil pre hne

theorem loopTools_nil_empty (g : RepoFile → List ToolInfo) : loopTools g [] = [] := rfl

theorem loopTools_ite_nil (g : RepoFile → List ToolInfo) (f : RepoFile)
    (h : g f = []) {c : Prop} [Decidable c] :
    loopTools g (if c then [f] else []) = [] := by
  split
  · exact loopTools_nil_single g f h
  · rfl

/-- C8: `analyze_repository` is fault-isolated per file — a file whose text
cannot be decoded, or whose Python source fails to parse, contributes no
tools and the analysis of every other file is exactly what it would be if
the failing file were absent.  (The Lean translation is total, so no
exception can escape.) -/
theorem analyze_repository_fault_isolated (pre post : List RepoFile)
    (f : RepoFile)
    (hf : f.outcome = FileOutcome.readError
      ∨ (endsWith (".py".toList) (fileName f) = true
         ∧ ∃ c, f.outcome = FileOutcome.decoded c none)) :
    analyze_repository (pre ++ f :: post) = analyze_repository (pre ++ post) := by
  have hpy : pyFileTools f = [] := by
    rcases hf with hf | ⟨-, c, hf⟩ <;> rw [pyFileTools, hf]
  rw [analyze_repository, analyze_repository]
  simp only [filter_middle]
  simp only [List.filter_append, loopTools_append]
  rcases hf with hf | ⟨hext, c, hf⟩
  · have hts : tsJsFileTools f = [] := by simp [tsJsFileTools, hf]
    have hgo : goFileTools f = [] := by rw [goFileTools, hf]
    simp only [loopTools_ite_nil pyFileTools f hpy,
      loopTools_ite_nil tsJsFileTools f hts, loopTools_ite_nil goFileTools f hgo]
    simp [List.append_assoc]
  · have hfalse : ∀ ext : Str, ext ≠ [] → ext.getLast? ≠ some 'y' →
        endsWith ext (fileName f) = false := by
      intro ext hne hlast
      cases he : endsWith ext (fileName f)
      · rfl
      · have ha := endsWith_getLast? _ _ he hne
        have hb := endsWith_getLast? _ _ hext (by simp)
        rw [ha] at hb
        have hy : (".py".toList : Str).getLast? = some 'y' := by decide
        rw [hy] at hb
        exact absurd hb hlast
    rw [hfalse (".ts".toList) (by decide) (by decide),
      hfalse (".tsx".toList) (by decide) (by decide),
      hfalse (".js".toList) (by decide) (by decide),
      hfalse (".jsx".toList) (by decide) (by decide),
      hfalse (".go".toList) (by decide) (by decide)]
    simp only [loopTools_ite_nil pyFileTools f hpy]
    simp [List.append_assoc, loopTools_nil_empty]
def w8good : RepoFile :=
  { parts := ["a.txt".toList], outcome := FileOutcome.decoded [] none }

def w8bad : RepoFile := { parts := ["b.py".toList], outcome := FileOutcome.readError }

theorem analyze_repository_fault_isolated_witness :
    analyze_repository ([w8good] ++ w8bad :: []) = analyze_repository ([w8good] ++ []) :=
  analyze_repository_fault_isolated [w8good] [] w8bad (Or.inl rfl)

theorem foldl_origin_proj {α β : Type} (p : Str) (pr : β → List ToolInfo)
    (f : β → α → β)
    (hf : ∀ acc a t, t ∈ pr (f acc a) → t ∈ pr acc ∨ t.origin = p) :
    ∀ (l : List α) (acc : β), (∀ t ∈ pr acc, t.origin = p) →
      ∀ t ∈ pr (l.foldl f acc), t.origin = p := by
  intro l
  induction l with
  | nil => intro acc hacc t ht; exact hacc t ht
  | cons a l ih =>
    intro acc hacc t ht
    rw [List.foldl_cons] at ht
    refine ih (f acc a) ?_ t ht
    intro u hu
    rcases hf acc a u hu with h | h
    · exact hacc u h
    · exact h

theorem parse_tool_object_origin (objText origin : Str) (info : ToolInfo)
    (h : parse_tool_object objText origin = some info) : info.origin = origin := by
  simp only [parse_tool_object] at h
  split at h
  · split at h
    · injection h with h
      rw [← h]
    · exact absurd h (by simp)
  · exact absurd h (by simp)

theorem toolCallBody_origin (p pfx r : Str) :
    ∀ t ∈ toolCallBody p pfx r, t.origin = p := by
  intro t ht
  simp only [toolCallBody] at ht
  split at ht
  · simp at ht
  · split at ht
    · split at ht
      · simp at ht
      · refine foldl_origin_proj p id _ ?_ _ [] (by simp) t ht
        intro acc el u hu
        simp only [id] at hu ⊢
        split at hu
        · split at hu
          next info heq =>
            rcases List.mem_append.mp hu with hu | hu
            · exact Or.inl hu
            · right
              have he : u = info := by simpa using hu
              rw [he]
              exact parse_tool_object_origin _ _ _ heq
          next heq => exact Or.inl hu
        · exact Or.inl hu
    · split at ht
      · simp at ht
      · split at ht
        · simp at ht
        · split at ht
          · simp at ht
          · split at ht
            · split at ht
              next info heq =>
                have he : t = info := by simpa using ht
                rw [he]
                exact parse_tool_object_origin _ _ _ heq
              next heq => simp at ht
            · rcases List.mem_append.mp ht with ht | ht
              · split at ht
                next n heq =>
                  simp at ht
                  subst ht
                  rfl
                next heq => simp at ht
              · split at ht
                next heq => simp at ht
                next heq =>
                  split at ht
                  · refine foldl_origin_proj p id _ ?_ _ [] (by simp) t ht
                    intro acc el u hu
                    simp only [id] at hu ⊢
                    split at hu
                    · split at hu
                      next info heq2 =>
                        rcases List.mem_append.mp hu with hu | hu
                        · exact Or.inl hu
                        · right
                          have he : u = info := by simpa using hu
                          rw [he]
                          exact parse_tool_object_origin _ _ _ heq2
                      next heq2 => exact Or.inl hu
                    · exact Or.inl hu
                  · simp at ht
theorem analyze_typescript_source_origin (src p : Str) :
    ∀ t ∈ analyze_typescript_source src p, t.origin = p := by
  intro t ht
  simp only [analyze_typescript_source] at ht
  rcases List.mem_append.mp ht with ht | ht
  · rcases List.mem_append.mp ht with ht | ht
    · refine foldl_origin_proj p Prod.fst _ ?_ _ _ (by simp) t ht
      intro acc m u hu
      split at hu
      · exact Or.inl hu
      · split at hu
        next info heq =>
          dsimp only at hu
          rcases List.mem_append.mp hu with hu | hu
          · exact Or.inl hu
          · right
            have he : u = info := by simpa using hu
            rw [he]
            exact parse_tool_object_origin _ _ _ heq
        next heq => exact Or.inl hu
    · refine foldl_origin_proj p id _ ?_ _ [] (by simp) t ht
      intro acc m u hu
      simp only [id] at hu ⊢
      split at hu
      · exact Or.inl hu
      · split at hu
        next n heq =>
          rcases List.mem_append.mp hu with hu | hu
          · exact Or.inl hu
          · right
            simp at hu
            subst hu
            rfl
        next heq => exact Or.inl hu
  · refine foldl_origin_proj p id _ ?_ _ [] (by simp) t ht
    intro acc m u hu
    simp only [id] at hu ⊢
    rcases List.mem_append.mp hu with hu | hu
    · exact Or.inl hu
    · exact Or.inr (toolCallBody_origin p m.1 m.2 u hu)

theorem analyze_go_source_origin (src p : Str) :
    ∀ t ∈ analyze_go_source src p, t.origin = p := by
  intro t ht
  simp only [analyze_go_source] at ht
  refine foldl_origin_proj p id _ ?_ _ [] (by simp) t ht
  intro acc m u hu
  simp only [id] at hu ⊢
  rcases List.mem_append.mp hu with hu | hu
  · exact Or.inl hu
  · right
    simp at hu
    subst hu
    rfl

theorem analyzePyModule_origin (p : Str) (stmts : List PyStmt) :
    ∀ t ∈ analyzePyModule p stmts, t.origin = p := by
  intro t ht
  simp only [analyzePyModule, List.mem_flatten, List.mem_map] at ht
  obtain ⟨l, ⟨s, hs, hl⟩, htl⟩ := ht
  subst hl
  cases s with
  | funcDef f =>
    simp only [maybe_collect_from_decorators] at htl
    split at htl
    · simp at htl
      subst htl
      rfl
    · simp at htl
  | other => simp at htl

theorem pyFileTools_origin (f : RepoFile) :
    ∀ t ∈ pyFileTools f, t.origin = renderPath f.parts := by
  intro t ht
  rw [pyFileTools] at ht
  split at ht
  · simp at ht
  · simp at ht
  · exact analyzePyModule_origin _ _ t ht

theorem tsJsFileTools_origin (f : RepoFile) :
    ∀ t ∈ tsJsFileTools f, t.origin = renderPath f.parts := by
  intro t ht
  rw [tsJsFileTools] at ht
  split at ht
  · simp at ht
  · split at ht
    · simp at ht
    · exact analyze_typescript_source_origin _ _ t ht

theorem goFileTools_origin (f : RepoFile) :
    ∀ t ∈ goFileTools f, t.origin = renderPath f.parts := by
  intro t ht
  rw [goFileTools] at ht
  split at ht
  · simp at ht
  · exact analyze_go_source_origin _ _ t ht

theorem loopTools_mem (g : RepoFile → List ToolInfo) (l : List RepoFile) (t : ToolInfo)
    (ht : t ∈ loopTools g l) :
    ∃ f ∈ l, should_skip_path f.parts = false ∧ t ∈ g f := by
  rw [loopTools] at ht
  simp only [List.mem_flatten, List.mem_map] at ht
  obtain ⟨x, ⟨f, hf, hx⟩, htx⟩ := ht
  subst hx
  refine ⟨f, hf, ?_⟩
  cases hs : should_skip_path f.parts
  · rw [hs] at htx
    simp at htx
    exact ⟨rfl, htx⟩
  · rw [hs] at htx
    simp at htx

theorem should_skip_path_false (parts : List Str)
    (h : should_skip_path parts = false) :
    ∀ part ∈ parts, startsWith ['.'] part = false ∧ part ∉ SKIP_DIR_NAMES := by
  intro part hp
  rw [should_skip_path] at h
  constructor
  · cases hs : startsWith ['.'] part
    · rfl
    · have hh : parts.any (fun part => startsWith ['.'] part || part ∈ SKIP_DIR_NAMES)
          = true := List.any_eq_true.mpr ⟨part, hp, by simp [hs]⟩
      rw [hh] at h
      exact Bool.noConfusion h
  · intro hmem
    have hh : parts.any (fun part => startsWith ['.'] part || part ∈ SKIP_DIR_NAMES)
        = true := List.any_eq_true.mpr ⟨part, hp, by simp [hmem]⟩
    rw [hh] at h
    exact Bool.noConfusion h
/-- C9: every ToolInfo produced by `analyze_repository` originates from a
file of the repository none of whose path components starts with a dot or
belongs to the `SKIP_DIR_NAMES` denylist, and the TypeScript/JavaScript
pattern detector produces nothing from a file whose name ends in `.min.js`
or `.min.ts`. -/
theorem analyze_repository_skip_denylist (files : List RepoFile) :
    (∀ t ∈ analyze_repository files, ∃ f ∈ files,
        t.origin = renderPath f.parts
        ∧ ∀ part ∈ f.parts, startsWith ['.'] part = false ∧ part ∉ SKIP_DIR_NAMES)
    ∧ ∀ f : RepoFile,
        (endsWith (".min.js".toList) (fileName f)
          || endsWith (".min.ts".toList) (fileName f)) = true →
        tsJsFileTools f = [] := by
  constructor
  · intro t ht
    simp only [analyze_repository] at ht
    rcases List.mem_append.mp ht with ht | ht
    · rcases List.mem_append.mp ht with ht | ht
      · obtain ⟨f, hf, hskip, htf⟩ := loopTools_mem _ _ _ ht
        exact ⟨f, (List.mem_filter.mp hf).1, pyFileTools_origin f t htf,
          should_skip_path_false _ hskip⟩
      · obtain ⟨f, hf, hskip, htf⟩ := loopTools_mem _ _ _ ht
        have hmem : f ∈ files := by
          simp only [List.mem_append] at hf
          rcases hf with (hf | hf) | (hf | hf) <;> exact (List.mem_filter.mp hf).1
        exact ⟨f, hmem, tsJsFileTools_origin f t htf, should_skip_path_false _ hskip⟩
    · obtain ⟨f, hf, hskip, htf⟩ := loopTools_mem _ _ _ ht
      exact ⟨f, (List.mem_filter.mp hf).1, goFileTools_origin f t htf,
        should_skip_path_false _ hskip⟩
  · intro f h
    rw [tsJsFileTools, if_pos h]

def w9src : Str := "tool := mcp.NewTool(\"gamma\", \"adds numbers\")".toList

def w9file : RepoFile :=
  { parts := ["m.go".toList], outcome := FileOutcome.decoded w9src none }

def w9min : RepoFile :=
  { parts := ["big.min.js".toList], outcome := FileOutcome.decoded [] none }

def w9tool : ToolInfo :=
  { name := "gamma".toList, description := some ("adds numbers".toList),
    origin := "m.go".toList }

unseal replaceAll strLitScan finditer extractLoop in
theorem analyze_repository_skip_denylist_witness :
    (w9tool ∈ analyze_repository [w9file]
      ∧ ∃ f ∈ [w9file], w9tool.origin = renderPath f.parts
          ∧ ∀ part ∈ f.parts, startsWith ['.'] part = false ∧ part ∉ SKIP_DIR_NAMES)
    ∧ ((endsWith (".min.js".toList) (fileName w9min)
        || endsWith (".min.ts".toList) (fileName w9min)) = true
      ∧ tsJsFileTools w9min = []) :=
  ⟨⟨by decide, (analyze_repository_skip_denylist [w9file]).1 w9tool (by decide)⟩,
   ⟨by decide, (analyze_repository_skip_denylist [w9file]).2 w9min (by decide)⟩⟩
